import Mathlib

/-!
# Verification of the BuildStream CAS cache (`buildstream/_cas/cascache.py`)

A shallow embedding of the content-addressed storage cache: digests,
REv2 `Directory` messages, the blob store, commit/checkout of local
directory trees, structural diff, reachability-based pruning, and the
pull/push control flow against a remote.

Machine integers do not occur: hashes are modelled as natural numbers
produced by an injective encoding of blob contents (`encBlob`), standing
in for SHA-256 under the collision-freeness assumption that the source
code itself relies on ("hash collision probability is the security
model").  File and directory names are strings compared by their code
point sequences, which is Python's `str` ordering.
-/

namespace CASCache

/-- REv2 `Digest`: a content hash together with the size in bytes. -/
structure Digest where
  hash : Nat
  size_bytes : Nat
deriving DecidableEq, Repr

/-- An entry of `Directory.files`: name, digest and the executable bit. -/
structure FileNode where
  name : String
  digest : Digest
  is_executable : Bool
deriving DecidableEq, Repr

/-- An entry of `Directory.directories`: name and digest of the subdirectory blob. -/
structure DirectoryNode where
  name : String
  digest : Digest
deriving DecidableEq, Repr

/-- An entry of `Directory.symlinks`: name and literal target string. -/
structure SymlinkNode where
  name : String
  target : String
deriving DecidableEq, Repr

/-- REv2 `Directory` message: three sequences of named entries. -/
structure Directory where
  files : List FileNode
  directories : List DirectoryNode
  symlinks : List SymlinkNode
deriving DecidableEq, Repr

/-- A stored blob is either raw file bytes or a serialized `Directory`
message.  The (deterministic, injective) protobuf serialization is kept
abstract: a directory blob is represented by the message itself. -/
inductive Blob where
  | bytes (data : List Nat)
  | dir (d : Directory)
deriving DecidableEq, Repr

/-! ## The hash function

`encBlob` is a concrete injective encoding of blobs into `Nat`, the
model's stand-in for SHA-256 of the serialized content.  Injectivity is
the collision-freeness assumption made precise. -/

/-- Injective encoding of a list of naturals. -/
def encL (l : List Nat) : Nat :=
  l.foldr (fun x acc => Nat.pair x acc + 1) 0

/-- Code point sequence of a string (Python compares strings this way). -/
def strCodes (s : String) : List Nat :=
  s.data.map Char.toNat

/-- Injective encoding of a string. -/
def encStr (s : String) : Nat :=
  encL (strCodes s)

/-- Injective encoding of a digest. -/
def encDigest (d : Digest) : Nat :=
  Nat.pair d.hash d.size_bytes

/-- Injective encoding of a file node. -/
def encFileN (f : FileNode) : Nat :=
  Nat.pair (encStr f.name) (Nat.pair (encDigest f.digest) (cond f.is_executable 1 0))

/-- Injective encoding of a directory node. -/
def encDirN (n : DirectoryNode) : Nat :=
  Nat.pair (encStr n.name) (encDigest n.digest)

/-- Injective encoding of a symlink node. -/
def encSymN (n : SymlinkNode) : Nat :=
  Nat.pair (encStr n.name) (encStr n.target)

/-- Injective encoding of a `Directory` message. -/
def encDir (d : Directory) : Nat :=
  Nat.pair (encL (d.files.map encFileN))
    (Nat.pair (encL (d.directories.map encDirN)) (encL (d.symlinks.map encSymN)))

/-- The model hash function: SHA-256 stand-in.  File blobs and directory
blobs never collide (even/odd split), and equal hashes mean equal
contents (`encBlob_injective`). -/
def encBlob : Blob → Nat
  | .bytes l => 2 * encL l
  | .dir d => 2 * encDir d + 1

/-- Size in bytes of a blob, as recorded in `Digest.size_bytes`.  For a
directory blob the length of its serialization is modelled by a
deterministic function of the message. -/
def blobSize : Blob → Nat
  | .bytes l => l.length
  | .dir d => encDir d

/-- The digest `add_object` computes for given content. -/
def blobDigest (b : Blob) : Digest :=
  ⟨encBlob b, blobSize b⟩

/-! ## Name ordering

Python compares `str` values lexicographically by code points; `sorted`
and the `>` comparisons in `_diff_trees` use this order. -/

/-- Lexicographic strict order on code point sequences. -/
def lexLtb : List Nat → List Nat → Bool
  | _, [] => false
  | [], _ :: _ => true
  | a :: as, b :: bs => if a < b then true else if b < a then false else lexLtb as bs

/-- Python's `<` on strings. -/
def nameLt (a b : String) : Prop :=
  lexLtb (strCodes a) (strCodes b) = true

/-- Python's `<=` on strings (`sorted` order). -/
def nameLe (a b : String) : Prop :=
  lexLtb (strCodes b) (strCodes a) = false

instance : DecidableRel nameLt := fun a b => by unfold nameLt; infer_instance

instance : DecidableRel nameLe := fun a b => by unfold nameLe; infer_instance

/-! ## Blob store -/

/-- The `objects/` directory: one blob per hash. -/
abbrev Store := List (Nat × Blob)

/-- Read the blob stored for a hash (`objpath` + open). -/
def findBlob : Store → Nat → Option Blob
  | [], _ => none
  | (h, b) :: rest, k => if k = h then some b else findBlob rest k

/-- Invariant I1: each blob file's name is the hash of its bytes. -/
def Consistent (s : Store) : Prop :=
  ∀ h b, findBlob s h = some b → encBlob b = h

/-- Every binding of `s` is still found in `t` (the store only grows). -/
def Extends (s t : Store) : Prop :=
  ∀ h b, findBlob s h = some b → findBlob t h = some b

/-- `add_object` (fault-free): hash the content, then publish with
`link(tmp, final)`; if the object already exists the old file is kept and
`FileExistsError` is ignored.  Returns the digest of the input bytes. -/
def addObject (s : Store) (b : Blob) : Digest × Store :=
  match findBlob s (blobDigest b).hash with
  | some _ => (blobDigest b, s)
  | none => (blobDigest b, ((blobDigest b).hash, b) :: s)

/-! ## Errors

Modelled from the spec: the class `CASCacheError` is defined in
`_exceptions.py`, which is not among the given sources; §7 of the spec
gives the taxonomy of error kinds and the `temporary` hint that
`push` attaches.  `osError` stands for a raw `OSError`/`FileNotFoundError`
escaping uncaught (not a `CASCacheError`). -/
inductive CASErrKind where
  | storageIOFailed
  | refNotFound
  | subdirNotFound
  | unsupportedFileType
  | extractionFailed
  | pullFailed
  | pushFailed
  | osError
deriving DecidableEq, Repr

/-- An error surfaced to the caller, with the `temporary=True` hint used
by `push`. -/
structure CASCacheError where
  kind : CASErrKind
  temporary : Bool
deriving DecidableEq, Repr

/-- `add_object` with the OS interaction explicit.  `osFault` injects an
OS error other than `FileExistsError` (a failed `link`/`makedirs`);
`tmps` counts live temporary files: `NamedTemporaryFile` opens one on
entry and the `ExitStack` deletes it when the scope exits, on every exit
path — this `with`-statement semantics is part of the model. -/
def addObjectFull (s : Store) (b : Blob) (osFault : Bool) (tmps : Nat) :
    Except CASCacheError (Digest × Store) × Nat :=
  let opened := tmps + 1
  if osFault then (.error ⟨.storageIOFailed, false⟩, opened - 1)
  else
    match findBlob s (blobDigest b).hash with
    | some _ => (.ok (blobDigest b, s), opened - 1)
    | none => (.ok (blobDigest b, ((blobDigest b).hash, b) :: s), opened - 1)

/-! ## Refs -/

/-- Read a ref file under `refs/heads/`. -/
def findRef : List (String × Digest) → String → Option Digest
  | [], _ => none
  | (k, d) :: rest, r => if r = k then some d else findRef rest r

/-- The whole cache: object store plus refs. -/
structure CAS where
  objects : Store
  refs : List (String × Digest)
deriving DecidableEq, Repr

/-- `resolve_ref` (the digest, if the ref file exists). -/
def resolveRef (cas : CAS) (ref : String) : Option Digest :=
  findRef cas.refs ref

/-- `set_ref`: atomically create or replace a ref. -/
def setRef (cas : CAS) (ref : String) (tree : Digest) : CAS :=
  { cas with refs := (ref, tree) :: cas.refs }

/-! ## Local directory trees -/

mutual
/-- One entry of a local directory, classified as `_commit_directory`
classifies `lstat` modes: regular file (with its `st_mode`), directory,
symlink, socket, or any other file type. -/
inductive FSEntry where
  | file (data : List Nat) (mode : Nat)
  | dir (children : FSEntries)
  | symlink (target : String)
  | socket
  | other
deriving DecidableEq, Repr
/-- A local directory listing: named entries (in arbitrary `os.listdir`
order; names are unique on a real filesystem). -/
inductive FSEntries where
  | nil
  | cons (name : String) (entry : FSEntry) (rest : FSEntries)
deriving DecidableEq, Repr
end

mutual
/-- Size measure of an entry, used only for fuel bounds. -/
def entSize : FSEntry → Nat
  | .file _ _ => 1
  | .symlink _ => 1
  | .socket => 1
  | .other => 1
  | .dir ch => 1 + entsSize ch
/-- Size measure of a listing. -/
def entsSize : FSEntries → Nat
  | .nil => 0
  | .cons _ e rest => 1 + entSize e + entsSize rest
end

/-- Listing as a list of named entries. -/
def toListE : FSEntries → List (String × FSEntry)
  | .nil => []
  | .cons n e rest => (n, e) :: toListE rest

/-- Size measure of a list of named entries. -/
def listSize (es : List (String × FSEntry)) : Nat :=
  (es.map fun p => 1 + entSize p.2).sum

/-- `sorted(os.listdir(path))`: stable sort by name in code point order. -/
def sortEntries (es : List (String × FSEntry)) : List (String × FSEntry) :=
  es.insertionSort fun a b => nameLe a.1 b.1

/-- The names of a listing. -/
def namesE : FSEntries → List String
  | .nil => []
  | .cons n _ rest => n :: namesE rest

mutual
/-- Well-formedness of an entry as a real filesystem object: directory
children are well-formed, and no entry is of an unsupported kind. -/
def entryWFb : FSEntry → Bool
  | .file _ _ => true
  | .symlink _ => true
  | .socket => true
  | .other => false
  | .dir ch => entsWFb ch
/-- Well-formedness of a listing: names unique, entries well-formed. -/
def entsWFb : FSEntries → Bool
  | .nil => true
  | .cons n e rest => entryWFb e && !(namesE rest).contains n && entsWFb rest
end

/-! ## Commit (`_commit_directory`)

Fuel-indexed so that the recursion is structural; `none` means the fuel
ran out (never the case once the fuel exceeds the tree size). -/

mutual
/-- The body of `_commit_directory`'s loop over the sorted listing,
building the `Directory` message and ingesting blobs in walk order. -/
def commitList : Nat → Store → List (String × FSEntry) →
    Option (Except CASCacheError (Directory × Store))
  | 0, _, _ => none
  | _ + 1, s, [] => some (.ok (⟨[], [], []⟩, s))
  | fuel + 1, s, (n, e) :: rest =>
    match e with
    | .file data mode =>
      match commitList fuel (addObject s (.bytes data)).2 rest with
      | none => none
      | some (.error err) => some (.error err)
      | some (.ok (d, s2)) =>
        some (.ok ({ d with
          files := ⟨n, (addObject s (.bytes data)).1, mode &&& 64 == 64⟩ :: d.files }, s2))
    | .dir ch =>
      match commitDirectory fuel s ch with
      | none => none
      | some (.error err) => some (.error err)
      | some (.ok (dg, s1)) =>
        match commitList fuel s1 rest with
        | none => none
        | some (.error err) => some (.error err)
        | some (.ok (d, s2)) =>
          some (.ok ({ d with directories := ⟨n, dg⟩ :: d.directories }, s2))
    | .symlink target =>
      match commitList fuel s rest with
      | none => none
      | some (.error err) => some (.error err)
      | some (.ok (d, s2)) =>
        some (.ok ({ d with symlinks := ⟨n, target⟩ :: d.symlinks }, s2))
    | .socket => commitList fuel s rest
    | .other => some (.error ⟨.unsupportedFileType, false⟩)
/-- `_commit_directory`: walk the sorted listing, then serialize the
`Directory` message and ingest it; returns its digest. -/
def commitDirectory : Nat → Store → FSEntries →
    Option (Except CASCacheError (Digest × Store))
  | 0, _, _ => none
  | fuel + 1, s, ch =>
    match commitList fuel s (sortEntries (toListE ch)) with
    | none => none
    | some (.error err) => some (.error err)
    | some (.ok (d, s1)) => some (.ok (addObject s1 (.dir d)))
end

/-- Public `commit(refs, path)`: commit the directory, then `set_ref`
every requested ref to the root digest. -/
def commit (fuel : Nat) (cas : CAS) (refs : List String) (root : FSEntries) :
    Option (Except CASCacheError CAS) :=
  match commitDirectory fuel cas.objects root with
  | none => none
  | some (.error err) => some (.error err)
  | some (.ok (dg, s)) =>
    some (.ok (refs.foldl (fun c r => setRef c r dg) { objects := s, refs := cas.refs }))

/-! ## Checkout (`_checkout`) and extraction -/

/-- A materialized filesystem tree, as `_checkout` produces it: a file's
content is the linked blob, its mode is 0755 when `is_executable` else
0644; symlink targets are created verbatim. -/
inductive XTree where
  | file (content : Blob) (exec : Bool)
  | dir (entries : List (String × XTree))
  | symlink (target : String)

/-- `_checkout`: materialize a tree at a destination.  Missing file blobs
or an unreadable root are OS errors (`none` also covers fuel running
out); a child directory whose blob is absent is silently skipped. -/
def checkoutD : Nat → Store → Digest → Option (List (String × XTree))
  | 0, _, _ => none
  | fuel + 1, s, tree =>
    match findBlob s tree.hash with
    | some (.dir d) => do
      let filesOut ← d.files.mapM fun fn =>
        (findBlob s fn.digest.hash).map fun b => (fn.name, XTree.file b fn.is_executable)
      let dirsOut ← (d.directories.filter fun dn => (findBlob s dn.digest.hash).isSome).mapM
        fun dn => (checkoutD fuel s dn.digest).map fun ents => (dn.name, XTree.dir ents)
      let symsOut := d.symlinks.map fun sn => (sn.name, XTree.symlink sn.target)
      return filesOut ++ dirsOut ++ symsOut
    | _ => none

/-- `extract` when the destination does not yet exist: resolve the ref
and check the tree out (into a temp directory that is then renamed). -/
def extractFresh (fuel : Nat) (cas : CAS) (ref : String) :
    Option (List (String × XTree)) :=
  match resolveRef cas ref with
  | some tree => checkoutD fuel cas.objects tree
  | none => none

/-- `_get_subdir`: walk the path components, searching `directories`
linearly at each level. -/
def getSubdir (s : Store) : Digest → List String → Except CASCacheError Digest
  | tree, [] => .ok tree
  | tree, comp :: rest =>
    match findBlob s tree.hash with
    | some (.dir d) =>
      match d.directories.find? fun dn => dn.name == comp with
      | some dn => getSubdir s dn.digest rest
      | none => .error ⟨.subdirNotFound, false⟩
    | _ => .error ⟨.osError, false⟩

/-- The filesystem circumstances `extract` reacts to: whether the
destination directory already exists, whether the requested subdir is
already present beneath it, and how `move_atomic` ends. -/
structure ExtractEnv where
  destIsDir : Bool
  subdirIsDir : Bool
  moveDirExists : Bool
  moveOSError : Bool
deriving DecidableEq, Repr

/-- Public `extract(ref, path, subdir)`: resolves the ref, computes
`dest = path/<root hash>`, handles the already-extracted cases, otherwise
checks out into a temp dir and renames.  Returns the path it reports
(paths are component lists; the hash component is rendered with
`toString`). -/
def extract (fuel : Nat) (cas : CAS) (env : ExtractEnv) (ref : String)
    (path : List String) (subdir : Option (List String)) :
    Except CASCacheError (List String) :=
  match resolveRef cas ref with
  | none => .error ⟨.refNotFound, false⟩
  | some tree =>
    let originaldest := path ++ [toString tree.hash]
    let afterCheckout : Digest → List String → Except CASCacheError (List String) :=
      fun t _ =>
        match checkoutD fuel cas.objects t with
        | none => .error ⟨.osError, false⟩
        | some _ =>
          if env.moveDirExists then .ok originaldest
          else if env.moveOSError then .error ⟨.extractionFailed, false⟩
          else .ok originaldest
    if env.destIsDir then
      match subdir with
      | some sub =>
        if env.subdirIsDir then .ok originaldest
        else
          match getSubdir cas.objects tree sub with
          | .error e => .error e
          | .ok subtree => afterCheckout subtree (originaldest ++ sub)
      | none => .ok originaldest
    else afterCheckout tree originaldest

/-! ## Spec view of a local tree (for the round-trip statement) -/

mutual
/-- What a committed-then-extracted entry should look like: file bytes
with the owner-execute bit of the original mode, directories recursively,
symlink targets verbatim; sockets (and unsupported kinds) are absent. -/
def specViewE : FSEntry → Option XTree
  | .file data mode => some (.file (.bytes data) (mode &&& 64 == 64))
  | .dir ch => some (.dir (specViewEnts ch))
  | .symlink t => some (.symlink t)
  | .socket => none
  | .other => none
/-- Spec view of a listing, in listing order. -/
def specViewEnts : FSEntries → List (String × XTree)
  | .nil => []
  | .cons n e rest =>
    match specViewE e with
    | some x => (n, x) :: specViewEnts rest
    | none => specViewEnts rest
end

mutual
/-- Equality of materialized trees as filesystem trees: same file
contents and executable bits, same symlink targets, directory entries
equal by name up to order. -/
inductive XEq : XTree → XTree → Prop where
  | file : ∀ c e, XEq (.file c e) (.file c e)
  | symlink : ∀ t, XEq (.symlink t) (.symlink t)
  | dir : ∀ {ents spec}, XEqL ents spec → XEq (.dir ents) (.dir spec)
/-- Pointwise matching of two entry lists: equal names, equal trees. -/
inductive XEqP : List (String × XTree) → List (String × XTree) → Prop where
  | nil : XEqP [] []
  | cons : ∀ {n x y l₁ l₂}, XEq x y → XEqP l₁ l₂ → XEqP ((n, x) :: l₁) ((n, y) :: l₂)
/-- Entry lists that agree up to reordering: the left list matches some
permutation of the right list pointwise. -/
inductive XEqL : List (String × XTree) → List (String × XTree) → Prop where
  | mk : ∀ {l₁ l₂ l₃}, XEqP l₁ l₂ → l₂.Perm l₃ → XEqL l₁ l₃
end

mutual
/-- Does an entry contain an unsupported file kind anywhere? -/
def hasOtherE : FSEntry → Bool
  | .file _ _ => false
  | .symlink _ => false
  | .socket => false
  | .other => true
  | .dir ch => hasOtherEnts ch
/-- Does a listing contain an unsupported file kind anywhere? -/
def hasOtherEnts : FSEntries → Bool
  | .nil => false
  | .cons _ e rest => hasOtherE e || hasOtherEnts rest
end

/-- Does any entry of the listing contain an unsupported kind? -/
def anyOtherL (es : List (String × FSEntry)) : Bool :=
  es.any fun p => hasOtherE p.2

/-- A leaf of a materialized tree (file or symlink). -/
def flatX : XTree → Bool
  | .file _ _ => true
  | .symlink _ => true
  | .dir _ => false

/-- The file nodes `_commit_directory` appends for a listing, in listing
order: content digest and executable bit `(mode & S_IXUSR) == S_IXUSR`. -/
def fileNodesOf (es : List (String × FSEntry)) : List FileNode :=
  es.filterMap fun p =>
    match p.2 with
    | .file data mode => some ⟨p.1, blobDigest (.bytes data), mode &&& 64 == 64⟩
    | _ => none

/-- The symlink nodes appended for a listing: targets verbatim. -/
def symNodesOf (es : List (String × FSEntry)) : List SymlinkNode :=
  es.filterMap fun p =>
    match p.2 with
    | .symlink t => some ⟨p.1, t⟩
    | _ => none

/-- The subdirectory entries of a listing, with their children. -/
def dirPairsOf (es : List (String × FSEntry)) : List (String × FSEntries) :=
  es.filterMap fun p =>
    match p.2 with
    | .dir ch => some (p.1, ch)
    | _ => none

/-- Checked-out view of the regular files of a listing. -/
def fileViews (es : List (String × FSEntry)) : List (String × XTree) :=
  es.filterMap fun p =>
    match p.2 with
    | .file data mode => some (p.1, XTree.file (.bytes data) (mode &&& 64 == 64))
    | _ => none

/-- Checked-out view of the subdirectories of a listing. -/
def dirViews (es : List (String × FSEntry)) : List (String × XTree) :=
  es.filterMap fun p =>
    match p.2 with
    | .dir ch => some (p.1, XTree.dir (specViewEnts ch))
    | _ => none

/-- Checked-out view of the symlinks of a listing. -/
def symViews (es : List (String × FSEntry)) : List (String × XTree) :=
  es.filterMap fun p =>
    match p.2 with
    | .symlink t => some (p.1, XTree.symlink t)
    | _ => none

/-- Checked-out view of a listing in listing order (sockets and
unsupported kinds dropped). -/
def viewsOf (es : List (String × FSEntry)) : List (String × XTree) :=
  es.filterMap fun p => (specViewE p.2).map fun x => (p.1, x)

/-- The committed blob of a listing checks out, from every consistent
extension of the store, to a tree matching the spec view of the
listing. -/
def DirCheckout (ch : FSEntries) (dg : Digest) (s' : Store) : Prop :=
  ∀ s'', Extends s' s'' → Consistent s'' → ∀ xf, entsSize ch < xf →
    ∃ out, checkoutD xf s'' dg = some out ∧ XEqL out (specViewEnts ch)

/-- Everything `_commit_directory`'s loop guarantees about the message
it built and the store it left behind. -/
def CommitPayload (es : List (String × FSEntry)) (d : Directory) (s s' : Store) : Prop :=
  Consistent s' ∧ Extends s s' ∧
  d.files = fileNodesOf es ∧
  d.symlinks = symNodesOf es ∧
  (∀ n data mode, (n, FSEntry.file data mode) ∈ es →
    findBlob s' (encBlob (.bytes data)) = some (.bytes data)) ∧
  List.Forall₂ (fun (dn : DirectoryNode) (p : String × FSEntries) =>
    dn.name = p.1 ∧ DirCheckout p.2 dn.digest s') d.directories (dirPairsOf es)

/-! ## Diff (`_diff_trees`) -/

/-- `os.path.join` for the relative paths `diff` reports. -/
def pathJoin (p n : String) : String :=
  if p = "" then n else p ++ "/" ++ n

/-- The two-pointer merge over the sorted `files` sequences.  Returns
`(added, removed, modified)` in traversal order; `none` only when the
fuel runs out. -/
def diffFiles : Nat → String → List FileNode → List FileNode →
    Option (List String × List String × List String)
  | 0, _, _, _ => none
  | _ + 1, _, [], [] => some ([], [], [])
  | fuel + 1, path, [], fb :: tb => do
    let (a, r, m) ← diffFiles fuel path [] tb
    return (pathJoin path fb.name :: a, r, m)
  | fuel + 1, path, fa :: ta, [] => do
    let (a, r, m) ← diffFiles fuel path ta []
    return (a, pathJoin path fa.name :: r, m)
  | fuel + 1, path, fa :: ta, fb :: tb =>
    if nameLt fb.name fa.name then do
      let (a, r, m) ← diffFiles fuel path (fa :: ta) tb
      return (pathJoin path fb.name :: a, r, m)
    else if nameLt fa.name fb.name then do
      let (a, r, m) ← diffFiles fuel path ta (fb :: tb)
      return (a, pathJoin path fa.name :: r, m)
    else do
      let (a, r, m) ← diffFiles fuel path ta tb
      if fa.digest.hash ≠ fb.digest.hash then
        return (a, r, pathJoin path fa.name :: m)
      else
        return (a, r, m)

/-- Load one side of `_diff_trees`: a missing digest stands for the
empty directory; a present digest must decode as a `Directory` blob. -/
def loadDir (s : Store) : Option Digest → Option Directory
  | none => some ⟨[], [], []⟩
  | some t =>
    match findBlob s t.hash with
    | some (.dir d) => some d
    | _ => none

mutual
/-- `_diff_trees`: load the two directory messages (`none` digest means
the empty side of a one-sided recursion), merge files, then merge
subdirectories. -/
def diffTrees : Nat → Store → Option Digest → Option Digest → String →
    Option (List String × List String × List String)
  | 0, _, _, _, _ => none
  | fuel + 1, s, ta, tb, path => do
    let da ← loadDir s ta
    let db ← loadDir s tb
    let (fa, fr, fm) ← diffFiles fuel path da.files db.files
    let (da', dr', dm') ← diffDirs fuel s path da.directories db.directories
    return (fa ++ da', fr ++ dr', fm ++ dm')
/-- The two-pointer merge over the sorted `directories` sequences, with
one-sided or two-sided recursion into subtrees. -/
def diffDirs : Nat → Store → String → List DirectoryNode → List DirectoryNode →
    Option (List String × List String × List String)
  | 0, _, _, _, _ => none
  | _ + 1, _, _, [], [] => some ([], [], [])
  | fuel + 1, s, path, [], db :: tb => do
    let (a, r, m) ← diffTrees fuel s none (some db.digest) (pathJoin path db.name)
    let (a', r', m') ← diffDirs fuel s path [] tb
    return (a ++ a', r ++ r', m ++ m')
  | fuel + 1, s, path, da :: ta, [] => do
    let (a, r, m) ← diffTrees fuel s (some da.digest) none (pathJoin path da.name)
    let (a', r', m') ← diffDirs fuel s path ta []
    return (a ++ a', r ++ r', m ++ m')
  | fuel + 1, s, path, da :: ta, db :: tb =>
    if nameLt db.name da.name then do
      let (a, r, m) ← diffTrees fuel s none (some db.digest) (pathJoin path db.name)
      let (a', r', m') ← diffDirs fuel s path (da :: ta) tb
      return (a ++ a', r ++ r', m ++ m')
    else if nameLt da.name db.name then do
      let (a, r, m) ← diffTrees fuel s (some da.digest) none (pathJoin path da.name)
      let (a', r', m') ← diffDirs fuel s path ta (db :: tb)
      return (a ++ a', r ++ r', m ++ m')
    else if da.digest.hash ≠ db.digest.hash then do
      let (a, r, m) ← diffTrees fuel s (some da.digest) (some db.digest) (pathJoin path da.name)
      let (a', r', m') ← diffDirs fuel s path ta tb
      return (a ++ a', r ++ r', m ++ m')
    else do
      let (a', r', m') ← diffDirs fuel s path ta tb
      return (a', r', m')
end

/-- Public `diff(ref_a, ref_b, subdir)`: resolve both refs, optionally
descend to the subdir, run `_diff_trees`, and return
`(modified, removed, added)`. -/
def diff (fuel : Nat) (cas : CAS) (refA refB : String)
    (subdir : Option (List String)) :
    Except CASCacheError (List String × List String × List String) :=
  match resolveRef cas refA, resolveRef cas refB with
  | some ta, some tb =>
    let sub : Except CASCacheError (Digest × Digest) :=
      match subdir with
      | none => .ok (ta, tb)
      | some p =>
        match getSubdir cas.objects ta p, getSubdir cas.objects tb p with
        | .ok ta', .ok tb' => .ok (ta', tb')
        | .error e, _ => .error e
        | _, .error e => .error e
    match sub with
    | .error e => .error e
    | .ok (ta', tb') =>
      match diffTrees fuel cas.objects (some ta') (some tb') "" with
      | none => .error ⟨.osError, false⟩
      | some (a, r, m) => .ok (m, r, a)
  | _, _ => .error ⟨.refNotFound, false⟩

/-! ## Reachability and pruning -/

mutual
/-- `_reachable_refs_dir`: depth-first traversal recording the hash of
every visited directory blob and of every file entry; a hash already in
the set is not revisited.  `none` when a needed blob is unreadable or
the fuel runs out. -/
def reachableRefsDir : Nat → Store → List Nat → Digest → Option (List Nat)
  | 0, _, _, _ => none
  | fuel + 1, s, reachable, tree =>
    if tree.hash ∈ reachable then some reachable
    else
      match findBlob s tree.hash with
      | some (.dir d) =>
        reachList fuel s ((d.files.map fun fn => fn.digest.hash) ++ tree.hash :: reachable)
          d.directories
      | _ => none
/-- Traverse the child directories in order, threading the set. -/
def reachList : Nat → Store → List Nat → List DirectoryNode → Option (List Nat)
  | 0, _, _, _ => none
  | _ + 1, _, acc, [] => some acc
  | fuel + 1, s, acc, dn :: rest =>
    match reachableRefsDir fuel s acc dn.digest with
    | none => none
    | some acc' => reachList fuel s acc' rest
end

/-- Walk every ref, accumulating the reachable set. -/
def reachRefs (fuel : Nat) (s : Store) : List Nat → List (String × Digest) →
    Option (List Nat)
  | acc, [] => some acc
  | acc, (_, dg) :: rest =>
    match reachableRefsDir fuel s acc dg with
    | none => none
    | some acc' => reachRefs fuel s acc' rest

/-- `prune()`: mark from all refs, then sweep every object file whose
hash is not in the set, accumulating the bytes freed. -/
def prune (fuel : Nat) (cas : CAS) : Option (Nat × CAS) :=
  match reachRefs fuel cas.objects [] cas.refs with
  | none => none
  | some reachable =>
    let removed := cas.objects.filter fun p => !(decide (p.1 ∈ reachable))
    let kept := cas.objects.filter fun p => decide (p.1 ∈ reachable)
    some ((removed.map fun p => blobSize p.2).sum, { cas with objects := kept })

/-- Chains of `directories[]` edges from a root hash. -/
inductive DirReach (s : Store) : Nat → Nat → Prop where
  | refl : ∀ h, DirReach s h h
  | subdir : ∀ {r h d dn}, DirReach s r h → findBlob s h = some (.dir d) →
      dn ∈ d.directories → DirReach s r dn.digest.hash

/-- The transitive reachable set of the spec: hashes of directories
reached through `directories[]` edges, plus the digest hashes of their
file entries. -/
def BlobReach (s : Store) (r h : Nat) : Prop :=
  DirReach s r h ∨
    ∃ h' d fn, DirReach s r h' ∧ findBlob s h' = some (.dir d) ∧
      fn ∈ d.files ∧ fn.digest.hash = h

/-- No file entry of any stored directory message carries the hash of a
stored directory blob (true of every store the commit pipeline builds:
file blobs and directory blobs have distinct hashes by construction). -/
def FileDirDisjoint (s : Store) : Prop :=
  ∀ h dm, findBlob s h = some (.dir dm) →
    ∀ h' d' fn, findBlob s h' = some (.dir d') → fn ∈ d'.files → fn.digest.hash ≠ h

/-! ## Remote synchronization control flow -/

/-- gRPC status codes the control flow distinguishes. -/
inductive StatusCode where
  | notFound
  | resourceExhausted
  | otherCode (n : Nat)
deriving DecidableEq, Repr

/-- Outcome of `GetReference` on the remote. -/
inductive GetRefResult where
  | found (d : Digest)
  | rpcError (c : StatusCode)
deriving DecidableEq, Repr

/-- Outcome of fetching the root tree during `pull`: the blobs fetched
into the local store, a `BlobNotFound` raised by the remote, or an RPC
error. -/
inductive FetchResult where
  | fetched (added : Store)
  | blobNotFound
  | rpcError (c : StatusCode)
deriving DecidableEq, Repr

/-- `pull(ref, remote)` (no subdir): `GetReference`, then fetch the root
directory, then `set_ref`.  `NOT_FOUND` and `BlobNotFound` yield
`False`; other RPC errors raise `CASCacheError`. -/
def pull (cas : CAS) (ref : String) (getRef : GetRefResult)
    (fetch : Digest → FetchResult) : Except CASCacheError (Bool × CAS) :=
  match getRef with
  | .rpcError c =>
    if c = .notFound then .ok (false, cas)
    else .error ⟨.pullFailed, false⟩
  | .found dg =>
    match fetch dg with
    | .blobNotFound => .ok (false, cas)
    | .rpcError c =>
      if c = .notFound then .ok (false, cas)
      else .error ⟨.pullFailed, false⟩
    | .fetched added =>
      .ok (true, setRef { cas with objects := added ++ cas.objects } ref dg)

/-- The remote's behavior while one ref is pushed: the `GetReference`
response, and the RPC error (if any) raised during `_send_directory`
and during `UpdateReference`. -/
structure PushOutcome where
  getRef : GetRefResult
  sendErr : Option StatusCode
  updateErr : Option StatusCode
deriving DecidableEq, Repr

/-- `push`'s outer `except grpc.RpcError` handler: `RESOURCE_EXHAUSTED`
falls through to `return not skipped_remote`; anything else raises
`CASCacheError(..., temporary=True)`. -/
def handleRpc (c : StatusCode) (skipped : Bool) : Except CASCacheError Bool :=
  if c = .resourceExhausted then .ok (!skipped)
  else .error ⟨.pushFailed, true⟩

/-- The loop of `push(refs, remote)` with `skipped_remote` threaded. -/
def pushLoop (cas : CAS) (outcome : String → PushOutcome) :
    List String → Bool → Except CASCacheError Bool
  | [], skipped => .ok (!skipped)
  | ref :: rest, skipped =>
    match resolveRef cas ref with
    | none => .error ⟨.refNotFound, false⟩
    | some tree =>
      let send : Except CASCacheError Bool :=
        match (outcome ref).sendErr with
        | some c => handleRpc c skipped
        | none =>
          match (outcome ref).updateErr with
          | some c => handleRpc c skipped
          | none => pushLoop cas outcome rest false
      match (outcome ref).getRef with
      | .found d =>
        if d.hash = tree.hash ∧ d.size_bytes = tree.size_bytes then
          pushLoop cas outcome rest skipped
        else send
      | .rpcError c =>
        if c = .notFound then send
        else handleRpc c skipped

/-- Public `push(refs, remote)`: `skipped_remote` starts `True`; returns
whether any ref was actually pushed. -/
def push (cas : CAS) (outcome : String → PushOutcome) (refs : List String) :
    Except CASCacheError Bool :=
  pushLoop cas outcome refs true

/-! ## Scenario S3 (concrete diff example) -/

/-- Tree A of scenario S3. -/
def s3TreeA : FSEntries :=
  .cons "a.txt" (.file (strCodes "1") 420)
    (.cons "b.txt" (.file (strCodes "2") 420) .nil)

/-- Tree B of scenario S3. -/
def s3TreeB : FSEntries :=
  .cons "a.txt" (.file (strCodes "1") 420)
    (.cons "b.txt" (.file (strCodes "modified") 420)
      (.cons "c.txt" (.file (strCodes "3") 420) .nil))

/-- Commit both trees into an empty cache under refs `A` and `B`, then
run `diff("A", "B")`. -/
def s3Run : Option (Except CASCacheError (List String × List String × List String)) :=
  match commit 20 ⟨[], []⟩ ["A"] s3TreeA with
  | some (.ok casA) =>
    match commit 20 casA ["B"] s3TreeB with
    | some (.ok casAB) => some (diff 20 casAB "A" "B" none)
    | _ => none
  | _ => none

/-- The cache state after both S3 commits (empty cache if either commit
were to fail). -/
def s3CAS : CAS :=
  match commit 20 ⟨[], []⟩ ["A"] s3TreeA with
  | some (.ok casA) =>
    match commit 20 casA ["B"] s3TreeB with
    | some (.ok casAB) => casAB
    | _ => ⟨[], []⟩
  | _ => ⟨[], []⟩

/-- A concrete directory message with one file, one present
subdirectory, one dangling subdirectory, and one symlink. -/
def c8Dir : Directory :=
  ⟨[⟨"f", ⟨2, 1⟩, false⟩], [⟨"gone", ⟨9, 0⟩, ⟩, ⟨"present", ⟨3, 0⟩⟩], [⟨"l", "t"⟩]⟩

/-- A concrete store containing `c8Dir` at hash 1, the file blob at
hash 2, and the present subdirectory at hash 3; hash 9 is dangling. -/
def c8Store : Store :=
  [(1, .dir c8Dir), (2, .bytes [5]), (3, .dir ⟨[], [], []⟩)]

/-- A concrete local tree with one file of each supported kind (the
file is executable) and a subdirectory holding a file. -/
def rtTree : FSEntries :=
  .cons "bin" (.dir (.cons "run" (.file (strCodes "exe") 493) .nil))
    (.cons "a.txt" (.file (strCodes "hello") 420)
      (.cons "link" (.symlink "a.txt")
        (.cons "sock" .socket .nil)))

/-- A small file blob. -/
def c5G : Blob := .bytes [7]

/-- A directory whose only entry is the file `g`. -/
def c5D : Directory := ⟨[⟨"g", ⟨encBlob c5G, blobSize c5G⟩, false⟩], [], []⟩

/-- A root directory containing a file `f` whose content digest equals
the digest of the subdirectory blob `sub` (the file's bytes are the
serialized subdirectory — possible on the real system, where both
digests are SHA-256 of identical bytes). -/
def c5R : Directory :=
  ⟨[⟨"f", ⟨encBlob (.dir c5D), blobSize (.dir c5D)⟩, false⟩],
    [⟨"sub", ⟨encBlob (.dir c5D), blobSize (.dir c5D)⟩⟩], []⟩

/-- The cache for the prune counterexample: one ref to `c5R`, complete
tree. -/
def c5CAS : CAS :=
  ⟨[(encBlob (.dir c5R), .dir c5R), (encBlob (.dir c5D), .dir c5D), (encBlob c5G, c5G)],
    [("r", ⟨encBlob (.dir c5R), blobSize (.dir c5R)⟩)]⟩

/-- A cache with one ref to an empty directory and one unreachable blob
of one byte. -/
def w5CAS : CAS :=
  ⟨[(encBlob (.dir ⟨[], [], []⟩), .dir ⟨[], [], []⟩), (encBlob (.bytes [9]), .bytes [9])],
    [("r", ⟨encBlob (.dir ⟨[], [], []⟩), blobSize (.dir ⟨[], [], []⟩)⟩)]⟩

/-- Decidable equality for operation results, used to evaluate concrete
runs. -/
instance {ε α : Type} [DecidableEq ε] [DecidableEq α] : DecidableEq (Except ε α) :=
  fun x y =>
    match x, y with
    | .ok a, .ok b => if h : a = b then isTrue (by rw [h]) else isFalse (by simp [h])
    | .error e, .error f => if h : e = f then isTrue (by rw [h]) else isFalse (by simp [h])
    | .ok _, .error _ => isFalse (by simp)
    | .error _, .ok _ => isFalse (by simp)

theorem encL_injective : Function.Injective encL := by
  intro l₁
  induction l₁ with
  | nil =>
    intro l₂ h
    cases l₂ with
    | nil => rfl
    | cons y ys => simp [encL] at h
  | cons x xs ih =>
    intro l₂ h
    cases l₂ with
    | nil => simp [encL] at h
    | cons y ys =>
      simp only [encL, List.foldr_cons] at h
      have hp : Nat.pair x (encL xs) = Nat.pair y (encL ys) := by
        simpa [encL] using Nat.add_right_cancel h
      have h' := Nat.pair_eq_pair.mp hp
      have hxs : encL xs = encL ys := h'.2
      exact by rw [h'.1, ih hxs]

theorem strCodes_injective : Function.Injective strCodes := by
  intro s t h
  have hchar : Function.Injective Char.toNat := by
    intro a b hab
    have hv : a.val = b.val := UInt32.toNat.inj hab
    exact Char.ext hv
  have hdata : s.data = t.data := List.map_injective_iff.mpr hchar h
  cases s; cases t; simp_all

theorem encStr_injective : Function.Injective encStr := fun _ _ h =>
  strCodes_injective (encL_injective h)

theorem encDigest_injective : Function.Injective encDigest := by
  intro a b h
  have := Nat.pair_eq_pair.mp h
  cases a; cases b; simp_all

theorem encFileN_injective : Function.Injective encFileN := by
  intro a b h
  have h1 := Nat.pair_eq_pair.mp h
  have h2 := Nat.pair_eq_pair.mp h1.2
  have hname := encStr_injective h1.1
  have hdig := encDigest_injective h2.1
  have hexec : a.is_executable = b.is_executable := by
    cases ha : a.is_executable <;> cases hb : b.is_executable <;>
      simp [ha, hb] at h2 <;> simp_all
  cases a; cases b; simp_all

theorem encDirN_injective : Function.Injective encDirN := by
  intro a b h
  have h1 := Nat.pair_eq_pair.mp h
  have hname := encStr_injective h1.1
  have hdig := encDigest_injective h1.2
  cases a; cases b; simp_all

theorem encSymN_injective : Function.Injective encSymN := by
  intro a b h
  have h1 := Nat.pair_eq_pair.mp h
  have hname := encStr_injective h1.1
  have htgt := encStr_injective h1.2
  cases a; cases b; simp_all

theorem encDir_injective : Function.Injective encDir := by
  intro a b h
  have h1 := Nat.pair_eq_pair.mp h
  have h2 := Nat.pair_eq_pair.mp h1.2
  have hf := List.map_injective_iff.mpr encFileN_injective (encL_injective h1.1)
  have hd := List.map_injective_iff.mpr encDirN_injective (encL_injective h2.1)
  have hs := List.map_injective_iff.mpr encSymN_injective (encL_injective h2.2)
  cases a; cases b; simp_all

theorem encBlob_injective : Function.Injective encBlob := by
  intro a b h
  cases a with
  | bytes la =>
    cases b with
    | bytes lb =>
      simp only [encBlob] at h
      have : encL la = encL lb := by omega
      rw [encL_injective this]
    | dir db => simp only [encBlob] at h; omega
  | dir da =>
    cases b with
    | bytes lb => simp only [encBlob] at h; omega
    | dir db =>
      simp only [encBlob] at h
      have : encDir da = encDir db := by omega
      rw [encDir_injective this]

/-! ## Store lemmas -/

theorem Extends.rfl (s : Store) : Extends s s := fun _ _ h => h

theorem Extends.trans {s t u : Store} (h₁ : Extends s t) (h₂ : Extends t u) :
    Extends s u := fun h b hf => h₂ h b (h₁ h b hf)

/-- `addObject` never loses a binding. -/
theorem addObject_extends (s : Store) (b : Blob) : Extends s (addObject s b).2 := by
  intro h c hf
  unfold addObject
  cases hmem : findBlob s (blobDigest b).hash with
  | some _ => simpa using hf
  | none =>
    simp only []
    by_cases heq : h = (blobDigest b).hash
    · rw [heq] at hf; rw [hf] at hmem; cases hmem
    · simpa [findBlob, heq] using hf

/-- `addObject` preserves consistency. -/
theorem addObject_consistent {s : Store} (hc : Consistent s) (b : Blob) :
    Consistent (addObject s b).2 := by
  intro h c hf
  unfold addObject at hf
  cases hmem : findBlob s (blobDigest b).hash with
  | some _ => rw [hmem] at hf; exact hc h c hf
  | none =>
    rw [hmem] at hf
    simp only [findBlob] at hf
    by_cases heq : h = (blobDigest b).hash
    · subst heq; simp at hf; subst hf; rfl
    · rw [if_neg heq] at hf; exact hc h c hf

/-- After `addObject s b`, the blob `b` is found at its hash (uses
injectivity of the hash: an already present object has the same bytes). -/
theorem addObject_found {s : Store} (hc : Consistent s) (b : Blob) :
    findBlob (addObject s b).2 (encBlob b) = some b := by
  unfold addObject
  cases hmem : findBlob s (blobDigest b).hash with
  | some c =>
    have : encBlob c = encBlob b := hc _ c hmem
    have hcb : c = b := encBlob_injective this
    simpa [blobDigest, hcb] using hmem
  | none => simp [findBlob, blobDigest]

theorem addObject_digest (s : Store) (b : Blob) : (addObject s b).1 = blobDigest b := by
  unfold addObject
  cases findBlob s (blobDigest b).hash <;> rfl

/-! ## Claim theorems -/

/-- C6: `add_object` publication is idempotent and atomic at the link
step: when the destination already exists the operation succeeds, the
store is unchanged, and the digest of the input bytes is returned; any
other OS error is fatal with `StorageIOFailed`; the temporary file count
is restored on every exit path; and re-adding the same bytes is a no-op
returning the same digest. -/
theorem add_object_link_spec (s : Store) (b : Blob) (t : Nat) :
    (∀ c, findBlob s (blobDigest b).hash = some c →
      addObjectFull s b false t = (.ok (blobDigest b, s), t)) ∧
    addObjectFull s b true t = (.error ⟨.storageIOFailed, false⟩, t) ∧
    (∀ f, (addObjectFull s b f t).2 = t) ∧
    (∀ d s', addObjectFull s b false t = (.ok (d, s'), t) →
      d = blobDigest b ∧ addObjectFull s' b false t = (.ok (d, s'), t)) := by
  refine ⟨?_, ?_, ?_, ?_⟩
  · intro c hc
    unfold addObjectFull
    simp [hc]
  · unfold addObjectFull; simp
  · intro f
    unfold addObjectFull
    cases f
    · simp only [Bool.false_eq_true, if_false, ite_false]
      cases findBlob s (blobDigest b).hash <;> simp
    · simp
  · intro d s' h
    unfold addObjectFull at h ⊢
    cases hmem : findBlob s (blobDigest b).hash with
    | some c =>
      simp [hmem] at h
      obtain ⟨hd, hs⟩ := h
      subst hd; subst hs
      simp [hmem]
    | none =>
      simp [hmem] at h
      obtain ⟨hd, hs⟩ := h
      subst hd; subst hs
      simp [findBlob]

/-- Witness for C6 at a store already containing the blob: the inner
hypotheses are discharged at concrete values. -/
theorem add_object_link_spec_witness :
    addObjectFull [(2 * encL [7], Blob.bytes [7])] (.bytes [7]) false 5 =
      (.ok (blobDigest (.bytes [7]), [(2 * encL [7], Blob.bytes [7])]), 5) ∧
    addObjectFull [(2 * encL [7], Blob.bytes [7])] (.bytes [7]) true 5 =
      (.error ⟨.storageIOFailed, false⟩, 5) ∧
    (addObjectFull [(2 * encL [7], Blob.bytes [7])] (.bytes [7]) true 5).2 = 5 := by
  refine ⟨?_, ?_, ?_⟩
  · exact (add_object_link_spec [(2 * encL [7], Blob.bytes [7])] (.bytes [7]) 5).1
      (Blob.bytes [7]) (by decide)
  · exact (add_object_link_spec [(2 * encL [7], Blob.bytes [7])] (.bytes [7]) 5).2.1
  · exact (add_object_link_spec [(2 * encL [7], Blob.bytes [7])] (.bytes [7]) 5).2.2.1 true

/-- C10: whatever the filesystem circumstances and the requested subdir,
a successful `extract` returns `path/<root hash>` for the digest the ref
resolves to; the subdir component never appears in the returned path. -/
theorem extract_returns_root_path (fuel : Nat) (cas : CAS) (env : ExtractEnv)
    (ref : String) (path : List String) (subdir : Option (List String))
    (p : List String) (h : extract fuel cas env ref path subdir = .ok p) :
    ∃ tree, resolveRef cas ref = some tree ∧ p = path ++ [toString tree.hash] := by
  unfold extract at h
  cases hres : resolveRef cas ref with
  | none => rw [hres] at h; cases h
  | some tree =>
    rw [hres] at h
    refine ⟨tree, rfl, ?_⟩
    simp only [] at h
    by_cases hdest : env.destIsDir
    · rw [if_pos hdest] at h
      cases subdir with
      | none => simpa using h.symm
      | some sub =>
        simp only [] at h
        by_cases hsub : env.subdirIsDir
        · rw [if_pos hsub] at h; simpa using h.symm
        · rw [if_neg hsub] at h
          cases hgs : getSubdir cas.objects tree sub with
          | error e => rw [hgs] at h; cases h
          | ok subtree =>
            rw [hgs] at h
            cases hco : checkoutD fuel cas.objects subtree with
            | none => simp [hco] at h
            | some out =>
              simp only [hco] at h
              by_cases hmv : env.moveDirExists
              · rw [if_pos hmv] at h; simpa using h.symm
              · rw [if_neg hmv] at h
                by_cases hos : env.moveOSError
                · rw [if_pos hos] at h; cases h
                · rw [if_neg hos] at h; simpa using h.symm
    · rw [if_neg hdest] at h
      cases hco : checkoutD fuel cas.objects tree with
      | none => simp [hco] at h
      | some out =>
        simp only [hco] at h
        by_cases hmv : env.moveDirExists
        · rw [if_pos hmv] at h; simpa using h.symm
        · rw [if_neg hmv] at h
          by_cases hos : env.moveOSError
          · rw [if_pos hos] at h; cases h
          · rw [if_neg hos] at h; simpa using h.symm

/-- Witness for C10: a subdir was requested and the artifact is already
extracted; the returned path is still `path/<root hash>`. -/
theorem extract_returns_root_path_witness :
    ∃ tree, resolveRef ⟨[], [("r", ⟨5, 1⟩)]⟩ "r" = some tree ∧
      ["p", "5"] = ["p"] ++ [toString tree.hash] :=
  extract_returns_root_path 1 ⟨[], [("r", ⟨5, 1⟩)]⟩ ⟨true, true, false, false⟩
    "r" ["p"] (some ["sub"]) ["p", "5"] (by decide)

/-- C3: the pull protocol for one ref: `NOT_FOUND` from `GetReference`
returns `False`; a `BlobNotFound` during fetching returns `False`; a
successful fetch sets the local ref to the fetched root digest and
returns `True`; and any RPC error other than `NOT_FOUND` (at either
stage) raises the pull-failure `CASCacheError`. -/
theorem pull_protocol (cas : CAS) (ref : String) (fetch : Digest → FetchResult) :
    pull cas ref (.rpcError .notFound) fetch = .ok (false, cas) ∧
    (∀ dg, fetch dg = .blobNotFound → pull cas ref (.found dg) fetch = .ok (false, cas)) ∧
    (∀ dg added, fetch dg = .fetched added →
      ∃ cas', pull cas ref (.found dg) fetch = .ok (true, cas') ∧
        resolveRef cas' ref = some dg ∧ cas'.objects = added ++ cas.objects) ∧
    (∀ c, c ≠ .notFound →
      pull cas ref (.rpcError c) fetch = .error ⟨.pullFailed, false⟩) ∧
    (∀ dg c, fetch dg = .rpcError c → c ≠ .notFound →
      pull cas ref (.found dg) fetch = .error ⟨.pullFailed, false⟩) := by
  refine ⟨?_, ?_, ?_, ?_, ?_⟩
  · simp [pull]
  · intro dg hdg; simp [pull, hdg]
  · intro dg added hdg
    refine ⟨setRef { cas with objects := added ++ cas.objects } ref dg, ?_, ?_, ?_⟩
    · simp [pull, hdg]
    · simp [setRef, resolveRef, findRef]
    · rfl
  · intro c hc; simp [pull, hc]
  · intro dg c hdg hc; simp [pull, hdg, hc]

/-- Witness for C3 on a concrete cache and fetch behavior, inner
hypotheses discharged. -/
theorem pull_protocol_witness :
    pull ⟨[], []⟩ "r" (.rpcError .notFound) (fun _ => .blobNotFound) = .ok (false, ⟨[], []⟩) ∧
    pull ⟨[], []⟩ "r" (.found ⟨9, 1⟩) (fun _ => .blobNotFound) = .ok (false, ⟨[], []⟩) ∧
    pull ⟨[], []⟩ "r" (.rpcError .resourceExhausted) (fun _ => .blobNotFound) =
      .error ⟨.pullFailed, false⟩ := by
  refine ⟨?_, ?_, ?_⟩
  · exact (pull_protocol ⟨[], []⟩ "r" fun _ => .blobNotFound).1
  · exact (pull_protocol ⟨[], []⟩ "r" fun _ => .blobNotFound).2.1 ⟨9, 1⟩ rfl
  · exact (pull_protocol ⟨[], []⟩ "r" fun _ => .blobNotFound).2.2.2.1
      .resourceExhausted (by decide)

/-- Counterexample to C4 as stated: with two refs, the first is pushed
in full and the server then answers `RESOURCE_EXHAUSTED` while the
second is sent; `push` swallows the error but returns `True`, not
`False` — the outcome is distinguishable from "every ref was already up
to date". -/
theorem push_resource_exhausted_counterexample :
    push ⟨[], [("r1", ⟨1, 1⟩), ("r2", ⟨2, 2⟩)]⟩
      (fun r => if r = "r1" then ⟨.rpcError .notFound, none, none⟩
        else ⟨.rpcError .notFound, some .resourceExhausted, none⟩)
      ["r1", "r2"] = .ok true ∧
    (Except.ok true : Except CASCacheError Bool) ≠ .ok false := by
  refine ⟨by decide, by decide⟩

/-- C4 as amended: when the server answers `RESOURCE_EXHAUSTED` (at
`GetReference`, during the directory upload, or at `UpdateReference`),
no error is raised and `push` returns whether some earlier ref had
already been pushed in full — in particular `False` when the throttle
hits before any ref was pushed, e.g. on a single-ref push.  Any other
RPC error during the upload raises the push-failure `CASCacheError`
with `temporary := true`. -/
theorem push_resource_exhausted_amended (cas : CAS) (outcome : String → PushOutcome)
    (r : String) (rest : List String) (skipped : Bool) (tree : Digest)
    (hres : resolveRef cas r = some tree) :
    ((outcome r).getRef = .rpcError .resourceExhausted →
      pushLoop cas outcome (r :: rest) skipped = .ok (!skipped)) ∧
    ((outcome r).getRef = .rpcError .notFound →
      (outcome r).sendErr = some .resourceExhausted →
      pushLoop cas outcome (r :: rest) skipped = .ok (!skipped)) ∧
    ((outcome r).getRef = .rpcError .notFound → (outcome r).sendErr = none →
      (outcome r).updateErr = some .resourceExhausted →
      pushLoop cas outcome (r :: rest) skipped = .ok (!skipped)) ∧
    ((outcome r).getRef = .rpcError .notFound →
      (outcome r).sendErr = some .resourceExhausted →
      push cas outcome [r] = .ok false) ∧
    (∀ c, (outcome r).getRef = .rpcError .notFound → (outcome r).sendErr = some c →
      c ≠ .resourceExhausted →
      pushLoop cas outcome (r :: rest) skipped = .error ⟨.pushFailed, true⟩) := by
  refine ⟨?_, ?_, ?_, ?_, ?_⟩
  · intro hg
    simp [pushLoop, hres, hg, handleRpc]
  · intro hg hs
    simp [pushLoop, hres, hg, hs, handleRpc]
  · intro hg hs hu
    simp [pushLoop, hres, hg, hs, hu, handleRpc]
  · intro hg hs
    simp [push, pushLoop, hres, hg, hs, handleRpc]
  · intro c hg hs hc
    simp [pushLoop, hres, hg, hs, handleRpc, hc]

/-- Witness for the amended C4: a single-ref push hitting the throttle
during upload returns `False` without raising. -/
theorem push_resource_exhausted_amended_witness :
    push ⟨[], [("r", ⟨1, 1⟩)]⟩
      (fun _ => ⟨.rpcError .notFound, some .resourceExhausted, none⟩) ["r"] = .ok false :=
  (push_resource_exhausted_amended ⟨[], [("r", ⟨1, 1⟩)]⟩
    (fun _ => ⟨.rpcError .notFound, some .resourceExhausted, none⟩) "r" [] true ⟨1, 1⟩
    (by decide)).2.2.2.1 rfl rfl

/-- C2 (scenario S3): committing `A = (a.txt: 1, b.txt: 2)` and
`B = (a.txt: 1, b.txt: modified, c.txt: 3)` and diffing yields
`modified = [b.txt]`, `removed = []`, `added = [c.txt]` — the sorted
two-pointer merge reports the common name with changed digest as
modified, skips the unchanged name, and reports the B-only name as
added. -/
theorem diff_s3_example : s3Run = some (.ok (["b.txt"], [], ["c.txt"])) := by decide

/-! ## Name-order lemmas -/

theorem lexLtb_asymm : ∀ x y, lexLtb x y = true → lexLtb y x = false := by
  intro x
  induction x with
  | nil =>
    intro y h
    cases y with
    | nil => simp [lexLtb] at h
    | cons b bs => simp [lexLtb]
  | cons a as ih =>
    intro y h
    cases y with
    | nil => simp [lexLtb] at h
    | cons b bs =>
      by_cases hab : a < b
      · simp [lexLtb, hab, Nat.not_lt.mpr (Nat.le_of_lt hab), Nat.ne_of_gt hab]
      · by_cases hba : b < a
        · simp [lexLtb, hab, hba] at h
        · have hval : a = b := by omega
          subst hval
          have h' : lexLtb as bs = true := by simpa [lexLtb, hab] using h
          simp [lexLtb, hab, ih bs h']

theorem nameLt_asymm {a b : String} (h : nameLt a b) : ¬ nameLt b a := by
  unfold nameLt at h ⊢
  simp [lexLtb_asymm _ _ h]

theorem lexLtb_irrefl : ∀ x, lexLtb x x = false := by
  intro x
  induction x with
  | nil => rfl
  | cons a as ih => simp [lexLtb, ih]

theorem nameLt_irrefl (a : String) : ¬ nameLt a a := by
  unfold nameLt
  simp [lexLtb_irrefl]

theorem lexLtb_antisymm_eq : ∀ x y, lexLtb x y = false → lexLtb y x = false → x = y := by
  intro x
  induction x with
  | nil =>
    intro y h1 _
    cases y with
    | nil => rfl
    | cons b bs => simp [lexLtb] at h1
  | cons a as ih =>
    intro y h1 h2
    cases y with
    | nil => simp [lexLtb] at h2
    | cons b bs =>
      by_cases hab : a < b
      · simp [lexLtb, hab] at h1
      · by_cases hba : b < a
        · simp [lexLtb, hba] at h2
        · have hval : a = b := by omega
          subst hval
          have e1 : lexLtb as bs = false := by simpa [lexLtb, hab] using h1
          have e2 : lexLtb bs as = false := by simpa [lexLtb, hab] using h2
          rw [ih bs e1 e2]

theorem name_eq_of_not_lt {a b : String} (h1 : ¬ nameLt a b) (h2 : ¬ nameLt b a) :
    a = b := by
  unfold nameLt at h1 h2
  have e1 : lexLtb (strCodes a) (strCodes b) = false := by
    cases hv : lexLtb (strCodes a) (strCodes b) with
    | false => rfl
    | true => exact absurd hv h1
  have e2 : lexLtb (strCodes b) (strCodes a) = false := by
    cases hv : lexLtb (strCodes b) (strCodes a) with
    | false => rfl
    | true => exact absurd hv h2
  exact strCodes_injective (lexLtb_antisymm_eq _ _ e1 e2)

/-! ## Diff symmetry -/

theorem diffFiles_symm : ∀ fuel path fa fb a r m,
    diffFiles fuel path fa fb = some (a, r, m) →
    diffFiles fuel path fb fa = some (r, a, m) := by
  intro fuel
  induction fuel with
  | zero => intro path fa fb a r m h; simp [diffFiles] at h
  | succ n ih =>
    intro path fa fb a r m h
    cases fa with
    | nil =>
      cases fb with
      | nil =>
        simp [diffFiles] at h ⊢
        exact ⟨h.2.1, h.1, h.2.2⟩
      | cons fbh fbt =>
        cases hrec : diffFiles n path [] fbt with
        | none => simp [diffFiles, hrec] at h
        | some t =>
          obtain ⟨a', r', m'⟩ := t
          simp [diffFiles, hrec] at h
          obtain ⟨ha, hr, hm⟩ := h
          subst ha; subst hr; subst hm
          simp [diffFiles, ih path [] fbt a' r' m' hrec]
    | cons fah fat =>
      cases fb with
      | nil =>
        cases hrec : diffFiles n path fat [] with
        | none => simp [diffFiles, hrec] at h
        | some t =>
          obtain ⟨a', r', m'⟩ := t
          simp [diffFiles, hrec] at h
          obtain ⟨ha, hr, hm⟩ := h
          subst ha; subst hr; subst hm
          simp [diffFiles, ih path fat [] a' r' m' hrec]
      | cons fbh fbt =>
        by_cases hblt : nameLt fbh.name fah.name
        · cases hrec : diffFiles n path (fah :: fat) fbt with
          | none => simp [diffFiles, hblt, hrec] at h
          | some t =>
            obtain ⟨a', r', m'⟩ := t
            simp [diffFiles, hblt, hrec] at h
            obtain ⟨ha, hr, hm⟩ := h
            subst ha; subst hr; subst hm
            have halt : ¬ nameLt fah.name fbh.name := nameLt_asymm hblt
            simp [diffFiles, hblt, halt, ih path (fah :: fat) fbt a' r' m' hrec]
        · by_cases halt : nameLt fah.name fbh.name
          · cases hrec : diffFiles n path fat (fbh :: fbt) with
            | none => simp [diffFiles, hblt, halt, hrec] at h
            | some t =>
              obtain ⟨a', r', m'⟩ := t
              simp [diffFiles, hblt, halt, hrec] at h
              obtain ⟨ha, hr, hm⟩ := h
              subst ha; subst hr; subst hm
              simp [diffFiles, halt, ih path fat (fbh :: fbt) a' r' m' hrec]
          · have hname : fah.name = fbh.name := name_eq_of_not_lt halt hblt
            cases hrec : diffFiles n path fat fbt with
            | none => simp [diffFiles, hblt, halt, hrec] at h
            | some t =>
              obtain ⟨a', r', m'⟩ := t
              have hrec' := ih path fat fbt a' r' m' hrec
              by_cases hh : fah.digest.hash = fbh.digest.hash
              · simp [diffFiles, hblt, halt, hrec, hh] at h
                obtain ⟨ha, hr, hm⟩ := h
                subst ha; subst hr; subst hm
                simp [diffFiles, hblt, halt, hrec', hh]
              · simp [diffFiles, hblt, halt, hrec, hh] at h
                obtain ⟨ha, hr, hm⟩ := h
                subst ha; subst hr; subst hm
                have hh' : ¬ fbh.digest.hash = fah.digest.hash := fun hx => hh (Eq.symm hx)
                simp [diffFiles, hrec', hname, nameLt_irrefl, hh']

theorem diffTrees_diffDirs_symm : ∀ fuel,
    (∀ s ta tb path a r m, diffTrees fuel s ta tb path = some (a, r, m) →
      diffTrees fuel s tb ta path = some (r, a, m)) ∧
    (∀ s path la lb a r m, diffDirs fuel s path la lb = some (a, r, m) →
      diffDirs fuel s path lb la = some (r, a, m)) := by
  intro fuel
  induction fuel with
  | zero =>
    constructor
    · intro s ta tb path a r m h; simp [diffTrees] at h
    · intro s path la lb a r m h; simp [diffDirs] at h
  | succ n ih =>
    obtain ⟨ihT, ihD⟩ := ih
    constructor
    · intro s ta tb path a r m h
      cases hda : loadDir s ta with
      | none => simp [diffTrees, hda] at h
      | some da =>
        cases hdb : loadDir s tb with
        | none => simp [diffTrees, hda, hdb] at h
        | some db =>
          cases hf : diffFiles n path da.files db.files with
          | none => simp [diffTrees, hda, hdb, hf] at h
          | some tf =>
            obtain ⟨fa, fr, fm⟩ := tf
            cases hd : diffDirs n s path da.directories db.directories with
            | none => simp [diffTrees, hda, hdb, hf, hd] at h
            | some td =>
              obtain ⟨qa, qr, qm⟩ := td
              simp [diffTrees, hda, hdb, hf, hd] at h
              obtain ⟨ha, hr, hm⟩ := h
              subst ha; subst hr; subst hm
              simp [diffTrees, hda, hdb, diffFiles_symm n path _ _ _ _ _ hf,
                ihD s path _ _ _ _ _ hd]
    · intro s path la lb a r m h
      cases la with
      | nil =>
        cases lb with
        | nil =>
          simp [diffDirs] at h ⊢
          exact ⟨h.2.1, h.1, h.2.2⟩
        | cons dbh dbt =>
          cases hrec : diffTrees n s none (some dbh.digest) (pathJoin path dbh.name) with
          | none => simp [diffDirs, hrec] at h
          | some t1 =>
            obtain ⟨a1, r1, m1⟩ := t1
            cases hrec2 : diffDirs n s path ([] : List DirectoryNode) dbt with
            | none => simp [diffDirs, hrec, hrec2] at h
            | some t2 =>
              obtain ⟨a2, r2, m2⟩ := t2
              simp [diffDirs, hrec, hrec2] at h
              obtain ⟨ha, hr, hm⟩ := h
              subst ha; subst hr; subst hm
              simp [diffDirs, ihT s none (some dbh.digest) _ _ _ _ hrec,
                ihD s path _ _ _ _ _ hrec2]
      | cons dah dat =>
        cases lb with
        | nil =>
          cases hrec : diffTrees n s (some dah.digest) none (pathJoin path dah.name) with
          | none => simp [diffDirs, hrec] at h
          | some t1 =>
            obtain ⟨a1, r1, m1⟩ := t1
            cases hrec2 : diffDirs n s path dat ([] : List DirectoryNode) with
            | none => simp [diffDirs, hrec, hrec2] at h
            | some t2 =>
              obtain ⟨a2, r2, m2⟩ := t2
              simp [diffDirs, hrec, hrec2] at h
              obtain ⟨ha, hr, hm⟩ := h
              subst ha; subst hr; subst hm
              simp [diffDirs, ihT s (some dah.digest) none _ _ _ _ hrec,
                ihD s path _ _ _ _ _ hrec2]
        | cons dbh dbt =>
          by_cases hblt : nameLt dbh.name dah.name
          · have halt : ¬ nameLt dah.name dbh.name := nameLt_asymm hblt
            cases hrec : diffTrees n s none (some dbh.digest) (pathJoin path dbh.name) with
            | none => simp [diffDirs, hblt, hrec] at h
            | some t1 =>
              obtain ⟨a1, r1, m1⟩ := t1
              cases hrec2 : diffDirs n s path (dah :: dat) dbt with
              | none => simp [diffDirs, hblt, hrec, hrec2] at h
              | some t2 =>
                obtain ⟨a2, r2, m2⟩ := t2
                simp [diffDirs, hblt, hrec, hrec2] at h
                obtain ⟨ha, hr, hm⟩ := h
                subst ha; subst hr; subst hm
                simp [diffDirs, halt, hblt, ihT s none (some dbh.digest) _ _ _ _ hrec,
                  ihD s path _ _ _ _ _ hrec2]
          · by_cases halt : nameLt dah.name dbh.name
            · cases hrec : diffTrees n s (some dah.digest) none (pathJoin path dah.name) with
              | none => simp [diffDirs, hblt, halt, hrec] at h
              | some t1 =>
                obtain ⟨a1, r1, m1⟩ := t1
                cases hrec2 : diffDirs n s path dat (dbh :: dbt) with
                | none => simp [diffDirs, hblt, halt, hrec, hrec2] at h
                | some t2 =>
                  obtain ⟨a2, r2, m2⟩ := t2
                  simp [diffDirs, hblt, halt, hrec, hrec2] at h
                  obtain ⟨ha, hr, hm⟩ := h
                  subst ha; subst hr; subst hm
                  simp [diffDirs, halt, ihT s (some dah.digest) none _ _ _ _ hrec,
                    ihD s path _ _ _ _ _ hrec2]
            · have hname : dah.name = dbh.name := name_eq_of_not_lt halt hblt
              by_cases hh : dah.digest.hash = dbh.digest.hash
              · cases hrec2 : diffDirs n s path dat dbt with
                | none => simp [diffDirs, hblt, halt, hh, hrec2] at h
                | some t2 =>
                  obtain ⟨a2, r2, m2⟩ := t2
                  simp [diffDirs, hblt, halt, hh, hrec2] at h
                  obtain ⟨ha, hr, hm⟩ := h
                  subst ha; subst hr; subst hm
                  have hh' : dbh.digest.hash = dah.digest.hash := Eq.symm hh
                  simp [diffDirs, nameLt_irrefl, hname, hh',
                    ihD s path _ _ _ _ _ hrec2]
              · cases hrec : diffTrees n s (some dah.digest) (some dbh.digest)
                  (pathJoin path dah.name) with
                | none => simp [diffDirs, hblt, halt, hh, hrec] at h
                | some t1 =>
                  obtain ⟨a1, r1, m1⟩ := t1
                  cases hrec2 : diffDirs n s path dat dbt with
                  | none => simp [diffDirs, hblt, halt, hh, hrec, hrec2] at h
                  | some t2 =>
                    obtain ⟨a2, r2, m2⟩ := t2
                    simp [diffDirs, hblt, halt, hh, hrec, hrec2] at h
                    obtain ⟨ha, hr, hm⟩ := h
                    subst ha; subst hr; subst hm
                    have hh' : ¬ dbh.digest.hash = dah.digest.hash :=
                      fun hx => hh (Eq.symm hx)
                    have hrec' := ihT s (some dah.digest) (some dbh.digest) _ _ _ _ hrec
                    rw [hname] at hrec'
                    simp [diffDirs, nameLt_irrefl, hname, hh',
                      hrec', ihD s path _ _ _ _ _ hrec2]

/-- C9: diff symmetry — swapping the two refs swaps the added and
removed lists and keeps the modified list identical. -/
theorem diff_symmetric (fuel : Nat) (cas : CAS) (rA rB : String)
    (subdir : Option (List String)) (m r a : List String)
    (h : diff fuel cas rA rB subdir = .ok (m, r, a)) :
    diff fuel cas rB rA subdir = .ok (m, a, r) := by
  unfold diff at h ⊢
  cases hra : resolveRef cas rA with
  | none => rw [hra] at h; cases resolveRef cas rB <;> simp_all
  | some ta =>
    cases hrb : resolveRef cas rB with
    | none => rw [hra, hrb] at h; simp_all
    | some tb =>
      rw [hra, hrb] at h
      simp only [] at h ⊢
      cases subdir with
      | none =>
        simp only [] at h ⊢
        cases hd : diffTrees fuel cas.objects (some ta) (some tb) "" with
        | none => simp [hd] at h
        | some t =>
          obtain ⟨xa, xr, xm⟩ := t
          simp [hd] at h
          obtain ⟨hm, hr, ha⟩ := h
          subst hm; subst hr; subst ha
          simp [(diffTrees_diffDirs_symm fuel).1 _ _ _ _ _ _ _ hd]
      | some p =>
        cases hga : getSubdir cas.objects ta p with
        | error e => simp [hga] at h
        | ok ta' =>
          cases hgb : getSubdir cas.objects tb p with
          | error e => simp [hga, hgb] at h
          | ok tb' =>
            simp only [hga, hgb] at h ⊢
            cases hd : diffTrees fuel cas.objects (some ta') (some tb') "" with
            | none => simp [hd] at h
            | some t =>
              obtain ⟨xa, xr, xm⟩ := t
              simp [hd] at h
              obtain ⟨hm, hr, ha⟩ := h
              subst hm; subst hr; subst ha
              simp [(diffTrees_diffDirs_symm fuel).1 _ _ _ _ _ _ _ hd]

/-- Witness for C9 on the concrete S3 trees committed under refs `A`
and `B`. -/
theorem diff_symmetric_witness :
    diff 20 s3CAS "B" "A" none = .ok (["b.txt"], ["c.txt"], []) :=
  diff_symmetric 20 s3CAS "A" "B" none ["b.txt"] [] ["c.txt"] (by decide)

/-! ## Checkout of a directory with dangling children (C8) -/

theorem mapM_option_names {α β γ : Type} (f : α → Option β) (nm : α → γ) (nmB : β → γ)
    (hnm : ∀ x b, f x = some b → nmB b = nm x) :
    ∀ l : List α, (∀ x ∈ l, (f x).isSome) →
      ∃ out, l.mapM f = some out ∧ out.map nmB = l.map nm := by
  intro l
  induction l with
  | nil => intro _; exact ⟨[], rfl, rfl⟩
  | cons x xs ih =>
    intro h
    obtain ⟨b, hb⟩ := Option.isSome_iff_exists.mp (h x (List.mem_cons_self x xs))
    obtain ⟨out, hout, hmap⟩ := ih fun y hy => h y (List.mem_cons_of_mem x hy)
    refine ⟨b :: out, ?_, ?_⟩
    · rw [List.mapM_cons, hb, hout]; rfl
    · simp [hmap, hnm x b hb]

/-- C8: materializing a tree whose directory message has dangling child
directory references succeeds; the dangling children are silently
omitted while every file, every present subdirectory and every symlink
is materialized. -/
theorem checkout_skips_dangling (fuel : Nat) (s : Store) (tree : Digest) (d : Directory)
    (htree : findBlob s tree.hash = some (.dir d))
    (hfiles : ∀ fn ∈ d.files, (findBlob s fn.digest.hash).isSome)
    (hdirs : ∀ dn ∈ d.directories, (findBlob s dn.digest.hash).isSome →
      (checkoutD fuel s dn.digest).isSome) :
    ∃ out, checkoutD (fuel + 1) s tree = some out ∧
      ∃ filesOut dirsOut,
        out = filesOut ++ dirsOut ++
          d.symlinks.map (fun sn => (sn.name, XTree.symlink sn.target)) ∧
        filesOut.map Prod.fst = d.files.map FileNode.name ∧
        dirsOut.map Prod.fst =
          (d.directories.filter fun dn => (findBlob s dn.digest.hash).isSome).map
            DirectoryNode.name := by
  obtain ⟨filesOut, hfOut, hfNames⟩ :=
    mapM_option_names
      (fun fn => (findBlob s fn.digest.hash).map fun b => (fn.name, XTree.file b fn.is_executable))
      FileNode.name Prod.fst
      (by
        intro fn b hb
        cases hfb : findBlob s fn.digest.hash with
        | none => simp [hfb] at hb
        | some c => simp [hfb] at hb; subst hb; rfl)
      d.files
      (by
        intro fn hfn
        cases hfb : findBlob s fn.digest.hash with
        | none => exact absurd (hfiles fn hfn) (by simp [hfb])
        | some c => simp [hfb])
  obtain ⟨dirsOut, hdOut, hdNames⟩ :=
    mapM_option_names
      (fun dn => (checkoutD fuel s dn.digest).map fun ents => (dn.name, XTree.dir ents))
      DirectoryNode.name Prod.fst
      (by
        intro dn b hb
        cases hco : checkoutD fuel s dn.digest with
        | none => simp [hco] at hb
        | some ents => simp [hco] at hb; subst hb; rfl)
      (d.directories.filter fun dn => (findBlob s dn.digest.hash).isSome)
      (by
        intro dn hdn
        rw [List.mem_filter] at hdn
        cases hco : checkoutD fuel s dn.digest with
        | none => exact absurd (hdirs dn hdn.1 hdn.2) (by simp [hco])
        | some ents => simp [hco])
  refine ⟨filesOut ++ dirsOut ++
      d.symlinks.map (fun sn => (sn.name, XTree.symlink sn.target)), ?_,
    filesOut, dirsOut, rfl, hfNames, hdNames⟩
  simp only [checkoutD, htree, hfOut, hdOut]
  rfl

/-- Witness for C8: a store with one dangling subdirectory digest. -/
theorem checkout_skips_dangling_witness :
    ∃ out, checkoutD 2 c8Store ⟨1, 4⟩ = some out ∧
      ∃ filesOut dirsOut,
        out = filesOut ++ dirsOut ++
          c8Dir.symlinks.map (fun sn => (sn.name, XTree.symlink sn.target)) ∧
        filesOut.map Prod.fst = c8Dir.files.map FileNode.name ∧
        dirsOut.map Prod.fst =
          (c8Dir.directories.filter fun dn =>
            (findBlob c8Store dn.digest.hash).isSome).map DirectoryNode.name :=
  checkout_skips_dangling 1 c8Store ⟨1, 4⟩ c8Dir (by decide)
    (by decide)
    (by decide)

/-! ## Size and well-formedness bookkeeping for commit -/

theorem listSize_cons (p : String × FSEntry) (l : List (String × FSEntry)) :
    listSize (p :: l) = 1 + entSize p.2 + listSize l := by
  simp [listSize]

theorem listSize_perm {l₁ l₂ : List (String × FSEntry)} (h : l₁.Perm l₂) :
    listSize l₁ = listSize l₂ :=
  List.Perm.sum_eq (h.map _)

theorem listSize_sortEntries (l : List (String × FSEntry)) :
    listSize (sortEntries l) = listSize l :=
  listSize_perm (List.perm_insertionSort _ l)

theorem mem_sortEntries {p : String × FSEntry} {l : List (String × FSEntry)} :
    p ∈ sortEntries l ↔ p ∈ l :=
  (List.perm_insertionSort _ l).mem_iff

theorem listSize_toListE : ∀ ch : FSEntries, listSize (toListE ch) = entsSize ch
  | .nil => by simp [toListE, listSize, entsSize]
  | .cons n e rest => by
    simp only [toListE, listSize_cons, entsSize, listSize_toListE rest]

theorem mem_listSize {p : String × FSEntry} :
    ∀ {l : List (String × FSEntry)}, p ∈ l → 1 + entSize p.2 ≤ listSize l := by
  intro l
  induction l with
  | nil => intro h; cases h
  | cons q t ih =>
    intro h
    rw [listSize_cons]
    rcases List.mem_cons.mp h with h1 | h1
    · subst h1; omega
    · have := ih h1; omega

theorem namesE_eq : ∀ ch : FSEntries, namesE ch = (toListE ch).map Prod.fst
  | .nil => rfl
  | .cons n e rest => by simp [namesE, toListE, namesE_eq rest]

theorem entsWFb_mem : ∀ ch : FSEntries, entsWFb ch = true →
    ∀ p ∈ toListE ch, entryWFb p.2 = true
  | .nil => by intro _ p hp; cases hp
  | .cons n e rest => by
    intro h p hp
    simp only [entsWFb, Bool.and_eq_true] at h
    rcases List.mem_cons.mp hp with h1 | h1
    · subst h1; exact h.1.1
    · exact entsWFb_mem rest h.2 p h1

theorem entsWFb_nodup : ∀ ch : FSEntries, entsWFb ch = true →
    ((toListE ch).map Prod.fst).Nodup
  | .nil => by intro _; exact List.nodup_nil
  | .cons n e rest => by
    intro h
    simp only [entsWFb, Bool.and_eq_true] at h
    rw [toListE, List.map_cons, List.nodup_cons]
    refine ⟨?_, entsWFb_nodup rest h.2⟩
    intro hmem
    have hC := h.1.2
    rw [namesE_eq] at hC
    rw [← List.elem_iff] at hmem
    simp only [List.contains] at hC
    rw [hmem] at hC
    cases hC

/-! ## Matching-relation helper lemmas -/

theorem XEq_flat {x : XTree} (h : flatX x = true) : XEq x x := by
  cases x with
  | file c e => exact XEq.file c e
  | symlink t => exact XEq.symlink t
  | dir ents => simp [flatX] at h

theorem XEqP_flat_refl : ∀ l : List (String × XTree),
    (∀ x ∈ l, flatX x.2 = true) → XEqP l l := by
  intro l
  induction l with
  | nil => intro _; exact XEqP.nil
  | cons x xs ih =>
    intro h
    obtain ⟨n, t⟩ := x
    exact XEqP.cons (XEq_flat (h _ (List.mem_cons_self _ _)))
      (ih fun y hy => h y (List.mem_cons_of_mem _ hy))

theorem XEqP_append : ∀ {a b c d : List (String × XTree)},
    XEqP a b → XEqP c d → XEqP (a ++ c) (b ++ d) := by
  intro a
  induction a with
  | nil =>
    intro b c d h1 h2
    cases h1
    simpa using h2
  | cons x xs ih =>
    intro b c d h1 h2
    cases h1 with
    | cons hx hxs => exact XEqP.cons hx (ih hxs h2)

theorem XEqP_of_forall₂ : ∀ {l₁ l₂ : List (String × XTree)},
    List.Forall₂ (fun q p => q.1 = p.1 ∧ XEq q.2 p.2) l₁ l₂ → XEqP l₁ l₂ := by
  intro l₁
  induction l₁ with
  | nil =>
    intro l₂ h
    cases h
    exact XEqP.nil
  | cons x xs ih =>
    intro l₂ h
    cases h with
    | cons hx hxs =>
      obtain ⟨n, t⟩ := x
      rename_i p l₂'
      obtain ⟨m, u⟩ := p
      obtain ⟨h1, h2⟩ := hx
      cases h1
      exact XEqP.cons h2 (ih hxs)

/-! ## View decompositions -/

theorem specViewEnts_eq_viewsOf : ∀ ch : FSEntries,
    specViewEnts ch = viewsOf (toListE ch)
  | .nil => rfl
  | .cons n e rest => by
    have ih := specViewEnts_eq_viewsOf rest
    rw [toListE]
    simp only [specViewEnts]
    cases he : specViewE e <;> simpa [viewsOf, List.filterMap_cons, he] using ih

theorem views_split_perm : ∀ l : List (String × FSEntry),
    (fileViews l ++ dirViews l ++ symViews l).Perm (viewsOf l) := by
  intro l
  induction l with
  | nil => exact List.Perm.refl _
  | cons p t ih =>
    obtain ⟨n, e⟩ := p
    cases e with
    | file data mode =>
      have hf : fileViews ((n, FSEntry.file data mode) :: t) =
          (n, XTree.file (.bytes data) (mode &&& 64 == 64)) :: fileViews t := rfl
      have hd : dirViews ((n, FSEntry.file data mode) :: t) = dirViews t := rfl
      have hs : symViews ((n, FSEntry.file data mode) :: t) = symViews t := rfl
      have hv : viewsOf ((n, FSEntry.file data mode) :: t) =
          (n, XTree.file (.bytes data) (mode &&& 64 == 64)) :: viewsOf t := by
        simp [viewsOf, List.filterMap_cons, specViewE]
      rw [hf, hd, hs, hv]
      exact List.Perm.cons _ ih
    | dir ch =>
      have hf : fileViews ((n, FSEntry.dir ch) :: t) = fileViews t := rfl
      have hd : dirViews ((n, FSEntry.dir ch) :: t) =
          (n, XTree.dir (specViewEnts ch)) :: dirViews t := rfl
      have hs : symViews ((n, FSEntry.dir ch) :: t) = symViews t := rfl
      have hv : viewsOf ((n, FSEntry.dir ch) :: t) =
          (n, XTree.dir (specViewEnts ch)) :: viewsOf t := by
        simp [viewsOf, List.filterMap_cons, specViewE]
      rw [hf, hd, hs, hv]
      have ih' : (fileViews t ++ (dirViews t ++ symViews t)).Perm (viewsOf t) := by
        rw [← List.append_assoc]; exact ih
      refine List.Perm.trans ?_ (List.Perm.cons _ ih')
      rw [List.append_assoc]
      exact List.perm_middle
    | symlink tg =>
      have hf : fileViews ((n, FSEntry.symlink tg) :: t) = fileViews t := rfl
      have hd : dirViews ((n, FSEntry.symlink tg) :: t) = dirViews t := rfl
      have hs : symViews ((n, FSEntry.symlink tg) :: t) =
          (n, XTree.symlink tg) :: symViews t := rfl
      have hv : viewsOf ((n, FSEntry.symlink tg) :: t) =
          (n, XTree.symlink tg) :: viewsOf t := by
        simp [viewsOf, List.filterMap_cons, specViewE]
      rw [hf, hd, hs, hv]
      exact List.Perm.trans List.perm_middle (List.Perm.cons _ ih)
    | socket =>
      have hf : fileViews ((n, FSEntry.socket) :: t) = fileViews t := rfl
      have hd : dirViews ((n, FSEntry.socket) :: t) = dirViews t := rfl
      have hs : symViews ((n, FSEntry.socket) :: t) = symViews t := rfl
      have hv : viewsOf ((n, FSEntry.socket) :: t) = viewsOf t := by
        simp [viewsOf, List.filterMap_cons, specViewE]
      rw [hf, hd, hs, hv]
      exact ih
    | other =>
      have hf : fileViews ((n, FSEntry.other) :: t) = fileViews t := rfl
      have hd : dirViews ((n, FSEntry.other) :: t) = dirViews t := rfl
      have hs : symViews ((n, FSEntry.other) :: t) = symViews t := rfl
      have hv : viewsOf ((n, FSEntry.other) :: t) = viewsOf t := by
        simp [viewsOf, List.filterMap_cons, specViewE]
      rw [hf, hd, hs, hv]
      exact ih

theorem dirViews_eq_map : ∀ l : List (String × FSEntry),
    dirViews l = (dirPairsOf l).map fun p => (p.1, XTree.dir (specViewEnts p.2)) := by
  intro l
  induction l with
  | nil => rfl
  | cons p t ih =>
    obtain ⟨n, e⟩ := p
    cases e <;> simp [dirViews, dirPairsOf, List.filterMap_cons] <;>
      simpa [dirViews, dirPairsOf] using ih

theorem symViews_eq_map : ∀ l : List (String × FSEntry),
    symViews l = (symNodesOf l).map fun sn => (sn.name, XTree.symlink sn.target) := by
  intro l
  induction l with
  | nil => rfl
  | cons p t ih =>
    obtain ⟨n, e⟩ := p
    cases e <;> simp [symViews, symNodesOf, List.filterMap_cons] <;>
      simpa [symViews, symNodesOf] using ih

theorem fileViews_flat : ∀ l : List (String × FSEntry), ∀ x ∈ fileViews l, flatX x.2 = true := by
  intro l
  induction l with
  | nil => intro x hx; cases hx
  | cons p t ih =>
    obtain ⟨n, e⟩ := p
    intro x hx
    cases e <;> simp only [fileViews, List.filterMap_cons] at hx
    case file data mode =>
      rcases List.mem_cons.mp hx with h1 | h1
      · subst h1; rfl
      · exact ih x (by simpa [fileViews] using h1)
    all_goals exact ih x (by simpa [fileViews] using hx)

theorem symViews_flat : ∀ l : List (String × FSEntry), ∀ x ∈ symViews l, flatX x.2 = true := by
  intro l
  induction l with
  | nil => intro x hx; cases hx
  | cons p t ih =>
    obtain ⟨n, e⟩ := p
    intro x hx
    cases e <;> simp only [symViews, List.filterMap_cons] at hx
    case symlink tg =>
      rcases List.mem_cons.mp hx with h1 | h1
      · subst h1; rfl
      · exact ih x (by simpa [symViews] using h1)
    all_goals exact ih x (by simpa [symViews] using hx)

/-! ## Commit correctness machinery -/

theorem checkoutD_findBlob {xf : Nat} {s : Store} {t : Digest}
    {out : List (String × XTree)} (h : checkoutD xf s t = some out) :
    (findBlob s t.hash).isSome = true := by
  cases xf with
  | zero => simp [checkoutD] at h
  | succ m =>
    cases hfb : findBlob s t.hash with
    | none => simp [checkoutD, hfb] at h
    | some b => simp [hfb]

theorem mem_dirPairsOf : ∀ {l : List (String × FSEntry)} {p : String × FSEntries},
    p ∈ dirPairsOf l → (p.1, FSEntry.dir p.2) ∈ l := by
  intro l
  induction l with
  | nil => intro p hp; cases hp
  | cons q t ih =>
    intro p hp
    obtain ⟨n, e⟩ := q
    cases e <;> simp only [dirPairsOf, List.filterMap_cons] at hp
    case dir ch =>
      rcases List.mem_cons.mp hp with h1 | h1
      · subst h1; exact List.mem_cons_self _ _
      · exact List.mem_cons_of_mem _ (ih (by simpa [dirPairsOf] using h1))
    all_goals exact List.mem_cons_of_mem _ (ih (by simpa [dirPairsOf] using hp))

theorem forall₂_imp_mem {α β : Type} {R S : α → β → Prop} :
    ∀ {l₁ : List α} {l₂ : List β},
      List.Forall₂ R l₁ l₂ → (∀ a b, a ∈ l₁ → b ∈ l₂ → R a b → S a b) →
      List.Forall₂ S l₁ l₂ := by
  intro l₁
  induction l₁ with
  | nil =>
    intro l₂ h _
    cases h
    exact List.Forall₂.nil
  | cons x xs ih =>
    intro l₂ h himp
    cases h with
    | cons hx hxs =>
      refine List.Forall₂.cons
        (himp _ _ (List.mem_cons_self _ _) (List.mem_cons_self _ _) hx) ?_
      exact ih hxs fun a b ha hb hr =>
        himp a b (List.mem_cons_of_mem _ ha) (List.mem_cons_of_mem _ hb) hr

theorem forall₂_mem_left {α β : Type} {R : α → β → Prop} :
    ∀ {l₁ : List α} {l₂ : List β},
      List.Forall₂ R l₁ l₂ → ∀ a ∈ l₁, ∃ b ∈ l₂, R a b := by
  intro l₁
  induction l₁ with
  | nil => intro l₂ _ a ha; cases ha
  | cons x xs ih =>
    intro l₂ h a ha
    cases h with
    | cons hx hxs =>
      rcases List.mem_cons.mp ha with h1 | h1
      · subst h1; exact ⟨_, List.mem_cons_self _ _, hx⟩
      · obtain ⟨b, hb, hr⟩ := ih hxs a h1
        exact ⟨b, List.mem_cons_of_mem _ hb, hr⟩

/-- Materializing the file nodes of a listing from a store holding all
their blobs yields exactly the file views. -/
theorem files_mapM (s'' : Store) : ∀ l : List (String × FSEntry),
    (∀ n data mode, (n, FSEntry.file data mode) ∈ l →
      findBlob s'' (encBlob (.bytes data)) = some (.bytes data)) →
    (fileNodesOf l).mapM (fun fn =>
      (findBlob s'' fn.digest.hash).map fun b => (fn.name, XTree.file b fn.is_executable)) =
      some (fileViews l) := by
  intro l
  induction l with
  | nil => intro _; rfl
  | cons p t ih =>
    obtain ⟨n, e⟩ := p
    intro h
    have ht := ih fun n' data' mode' hm => h n' data' mode' (List.mem_cons_of_mem _ hm)
    cases e with
    | file data mode =>
      have hf := h n data mode (List.mem_cons_self _ _)
      have h1 : fileNodesOf ((n, FSEntry.file data mode) :: t) =
          ⟨n, blobDigest (.bytes data), mode &&& 64 == 64⟩ :: fileNodesOf t := rfl
      have h2 : fileViews ((n, FSEntry.file data mode) :: t) =
          (n, XTree.file (.bytes data) (mode &&& 64 == 64)) :: fileViews t := rfl
      rw [h1, h2, List.mapM_cons]
      simp only [blobDigest]
      rw [hf]
      rw [ht]
      rfl
    | dir ch => exact ht
    | symlink tg => exact ht
    | socket => exact ht
    | other => exact ht

/-- Materializing subdirectory nodes whose subtrees check out yields a
list matching the directory views pointwise. -/
theorem dirs_mapM (s'' : Store) (xf : Nat) :
    ∀ {dnl : List DirectoryNode} {pl : List (String × FSEntries)},
      List.Forall₂ (fun dn p => dn.name = p.1 ∧
        ∃ out, checkoutD xf s'' dn.digest = some out ∧ XEqL out (specViewEnts p.2)) dnl pl →
      ∃ dirsOut, dnl.mapM (fun dn =>
          (checkoutD xf s'' dn.digest).map fun ents => (dn.name, XTree.dir ents)) =
        some dirsOut ∧
        List.Forall₂ (fun (q : String × XTree) (p : String × XTree) =>
          q.1 = p.1 ∧ XEq q.2 p.2) dirsOut
          (pl.map fun p => (p.1, XTree.dir (specViewEnts p.2))) := by
  intro dnl
  induction dnl with
  | nil =>
    intro pl h
    cases h
    exact ⟨[], rfl, List.Forall₂.nil⟩
  | cons dn dns ih =>
    intro pl h
    cases h with
    | cons hx hxs =>
      rename_i p pt
      obtain ⟨hname, out, hout, hxeq⟩ := hx
      obtain ⟨dirsOut, hmap, hfor⟩ := ih hxs
      refine ⟨(dn.name, XTree.dir out) :: dirsOut, ?_, ?_⟩
      · rw [List.mapM_cons, hout, hmap]; rfl
      · exact List.Forall₂.cons ⟨hname, XEq.dir hxeq⟩ hfor

theorem DirCheckout_mono {ch : FSEntries} {dg : Digest} {s1 s2 : Store}
    (hext : Extends s1 s2) (h : DirCheckout ch dg s1) : DirCheckout ch dg s2 :=
  fun s'' h'' hc xf hxf => h s'' (hext.trans h'') hc xf hxf

theorem CommitPayload_extends {es : List (String × FSEntry)} {d : Directory}
    {s s1 s2 : Store} (h : CommitPayload es d s s1) (hext : Extends s1 s2)
    (hc2 : Consistent s2) : CommitPayload es d s s2 := by
  obtain ⟨_, hes, hf, hsym, hpres, hfor⟩ := h
  exact ⟨hc2, hes.trans hext, hf, hsym,
    fun n data mode hm => hext _ _ (hpres n data mode hm),
    forall₂_imp_mem hfor fun dn p _ _ hr =>
      ⟨hr.1, DirCheckout_mono hext hr.2⟩⟩

theorem CommitPayload_nil (s : Store) (hc : Consistent s) :
    CommitPayload [] ⟨[], [], []⟩ s s :=
  ⟨hc, Extends.rfl s, rfl, rfl, fun _ _ _ hm => absurd hm (List.not_mem_nil _),
    List.Forall₂.nil⟩

theorem CommitPayload_cons_file {nb : String} {data : List Nat} {mode : Nat}
    {es : List (String × FSEntry)} {d : Directory} {s s1 s2 : Store}
    (hext1 : Extends s s1)
    (hfound : findBlob s2 (encBlob (.bytes data)) = some (.bytes data))
    (hpay : CommitPayload es d s1 s2) :
    CommitPayload ((nb, FSEntry.file data mode) :: es)
      { d with files := ⟨nb, blobDigest (.bytes data), mode &&& 64 == 64⟩ :: d.files }
      s s2 := by
  obtain ⟨hc2, hes, hf, hsym, hpres, hfor⟩ := hpay
  refine ⟨hc2, hext1.trans hes, ?_, hsym, ?_, hfor⟩
  · have : fileNodesOf ((nb, FSEntry.file data mode) :: es) =
        ⟨nb, blobDigest (.bytes data), mode &&& 64 == 64⟩ :: fileNodesOf es := rfl
    rw [this, ← hf]
  · intro n' data' mode' hm
    rcases List.mem_cons.mp hm with h1 | h1
    · obtain ⟨h2, h3⟩ := Prod.mk.injEq .. ▸ h1
      cases h3
      exact hfound
    · exact hpres n' data' mode' h1

theorem CommitPayload_cons_dir {nb : String} {ch : FSEntries} {dg : Digest}
    {es : List (String × FSEntry)} {d : Directory} {s s1 s2 : Store}
    (hext1 : Extends s s1)
    (hDC : DirCheckout ch dg s2)
    (hpay : CommitPayload es d s1 s2) :
    CommitPayload ((nb, FSEntry.dir ch) :: es)
      { d with directories := ⟨nb, dg⟩ :: d.directories } s s2 := by
  obtain ⟨hc2, hes, hf, hsym, hpres, hfor⟩ := hpay
  refine ⟨hc2, hext1.trans hes, hf, hsym, ?_, ?_⟩
  · intro n' data' mode' hm
    rcases List.mem_cons.mp hm with h1 | h1
    · cases h1
    · exact hpres n' data' mode' h1
  · have : dirPairsOf ((nb, FSEntry.dir ch) :: es) = (nb, ch) :: dirPairsOf es := rfl
    rw [this]
    exact List.Forall₂.cons ⟨rfl, hDC⟩ hfor

theorem CommitPayload_cons_symlink {nb tg : String}
    {es : List (String × FSEntry)} {d : Directory} {s s2 : Store}
    (hpay : CommitPayload es d s s2) :
    CommitPayload ((nb, FSEntry.symlink tg) :: es)
      { d with symlinks := ⟨nb, tg⟩ :: d.symlinks } s s2 := by
  obtain ⟨hc2, hes, hf, hsym, hpres, hfor⟩ := hpay
  refine ⟨hc2, hes, hf, ?_, ?_, hfor⟩
  · have : symNodesOf ((nb, FSEntry.symlink tg) :: es) = ⟨nb, tg⟩ :: symNodesOf es := rfl
    rw [this, ← hsym]
  · intro n' data' mode' hm
    rcases List.mem_cons.mp hm with h1 | h1
    · cases h1
    · exact hpres n' data' mode' h1

theorem CommitPayload_cons_socket {nb : String}
    {es : List (String × FSEntry)} {d : Directory} {s s2 : Store}
    (hpay : CommitPayload es d s s2) :
    CommitPayload ((nb, FSEntry.socket) :: es) d s s2 := by
  obtain ⟨hc2, hes, hf, hsym, hpres, hfor⟩ := hpay
  refine ⟨hc2, hes, hf, hsym, ?_, hfor⟩
  · intro n' data' mode' hm
    rcases List.mem_cons.mp hm with h1 | h1
    · cases h1
    · exact hpres n' data' mode' h1

/-- The main commit/checkout induction: given enough fuel, a consistent
store and a well-formed tree, the commit loop succeeds and guarantees
`CommitPayload`; `_commit_directory` additionally publishes the message
blob and the result checks out to a tree matching the spec view. -/
theorem commit_main : ∀ fuel : Nat,
    (∀ es s, listSize es < fuel → Consistent s →
      (∀ p ∈ es, entryWFb p.2 = true) →
      ∃ d s', commitList fuel s es = some (.ok (d, s')) ∧ CommitPayload es d s s') ∧
    (∀ ch s, entsSize ch + 1 < fuel → Consistent s → entsWFb ch = true →
      ∃ d s', commitDirectory fuel s ch = some (.ok (blobDigest (.dir d), s')) ∧
        CommitPayload (sortEntries (toListE ch)) d s s' ∧
        findBlob s' (encBlob (.dir d)) = some (.dir d) ∧
        DirCheckout ch (blobDigest (.dir d)) s') := by
  intro fuel
  induction fuel with
  | zero =>
    constructor
    · intro es s hsz _ _; omega
    · intro ch s hsz _ _; omega
  | succ n ih =>
    obtain ⟨ihL, ihD⟩ := ih
    constructor
    · intro es s hsz hc hwf
      cases es with
      | nil => exact ⟨⟨[], [], []⟩, s, rfl, CommitPayload_nil s hc⟩
      | cons p rest =>
        obtain ⟨nb, e⟩ := p
        rw [listSize_cons] at hsz
        have hwfe := hwf _ (List.mem_cons_self _ _)
        have hwfr := fun q hq => hwf q (List.mem_cons_of_mem _ hq)
        cases e with
        | file data mode =>
          have hszr : listSize rest < n := by simp [entSize] at hsz; omega
          have hc1 : Consistent (addObject s (.bytes data)).2 := addObject_consistent hc _
          have hext1 : Extends s (addObject s (.bytes data)).2 := addObject_extends s _
          obtain ⟨d2, s2, hok2, hpay2⟩ := ihL rest _ hszr hc1 hwfr
          refine ⟨{ d2 with
            files := ⟨nb, blobDigest (.bytes data), mode &&& 64 == 64⟩ :: d2.files },
            s2, ?_, ?_⟩
          · simp only [commitList]
            rw [hok2, addObject_digest]
          · have hfound : findBlob s2 (encBlob (.bytes data)) = some (.bytes data) := by
              obtain ⟨_, hes, _, _, _, _⟩ := hpay2
              exact hes _ _ (addObject_found hc (.bytes data))
            exact CommitPayload_cons_file hext1 hfound hpay2
        | dir ch =>
          have hszd : entsSize ch + 1 < n := by simp [entSize] at hsz; omega
          have hwfd : entsWFb ch = true := by simpa [entryWFb] using hwfe
          obtain ⟨dd, s1, hok1, hpay1, hfound1, hDC1⟩ := ihD ch s hszd hc hwfd
          have hc1 : Consistent s1 := hpay1.1
          have hext1 : Extends s s1 := hpay1.2.1
          have hszr : listSize rest < n := by simp [entSize] at hsz; omega
          obtain ⟨d2, s2, hok2, hpay2⟩ := ihL rest s1 hszr hc1 hwfr
          refine ⟨{ d2 with directories := ⟨nb, blobDigest (.dir dd)⟩ :: d2.directories },
            s2, ?_, ?_⟩
          · simp only [commitList, hok1, hok2]
          · have hDC2 : DirCheckout ch (blobDigest (.dir dd)) s2 :=
              DirCheckout_mono hpay2.2.1 hDC1
            exact CommitPayload_cons_dir hext1 hDC2 hpay2
        | symlink tg =>
          have hszr : listSize rest < n := by simp [entSize] at hsz; omega
          obtain ⟨d2, s2, hok2, hpay2⟩ := ihL rest s hszr hc hwfr
          refine ⟨{ d2 with symlinks := ⟨nb, tg⟩ :: d2.symlinks }, s2, ?_, ?_⟩
          · simp only [commitList]
            rw [hok2]
          · exact CommitPayload_cons_symlink hpay2
        | socket =>
          have hszr : listSize rest < n := by simp [entSize] at hsz; omega
          obtain ⟨d2, s2, hok2, hpay2⟩ := ihL rest s hszr hc hwfr
          refine ⟨d2, s2, ?_, CommitPayload_cons_socket hpay2⟩
          simp only [commitList]
          rw [hok2]
        | other => simp [entryWFb] at hwfe
    · intro ch s hsz hc hwf
      have hszl : listSize (sortEntries (toListE ch)) < n := by
        rw [listSize_sortEntries, listSize_toListE]; omega
      have hwfl : ∀ p ∈ sortEntries (toListE ch), entryWFb p.2 = true := fun p hp =>
        entsWFb_mem ch hwf p (mem_sortEntries.mp hp)
      obtain ⟨d, s1, hok, hpay⟩ := ihL (sortEntries (toListE ch)) s hszl hc hwfl
      have hc1 : Consistent s1 := hpay.1
      have hcfin : Consistent (addObject s1 (.dir d)).2 := addObject_consistent hc1 _
      have hextfin : Extends s1 (addObject s1 (.dir d)).2 := addObject_extends s1 _
      have hfoundfin : findBlob (addObject s1 (.dir d)).2 (encBlob (.dir d)) =
          some (.dir d) := addObject_found hc1 (.dir d)
      have hpayfin : CommitPayload (sortEntries (toListE ch)) d s (addObject s1 (.dir d)).2 :=
        CommitPayload_extends hpay hextfin hcfin
      refine ⟨d, (addObject s1 (.dir d)).2, ?_, hpayfin, hfoundfin, ?_⟩
      · simp only [commitDirectory]
        rw [hok, ← addObject_digest s1 (.dir d)]
      · -- the checkout property
        intro s'' hext'' hc'' xf hxf
        obtain ⟨hcP, hesP, hfP, hsymP, hpresP, hforP⟩ := hpayfin
        cases xf with
        | zero => omega
        | succ m =>
          have hfound'' : findBlob s'' (encBlob (.dir d)) = some (.dir d) :=
            hext'' _ _ hfoundfin
          have hfilesM := files_mapM s'' (sortEntries (toListE ch))
            (fun nm dt md hm => hext'' _ _ (hpresP nm dt md hm))
          rw [← hfP] at hfilesM
          have hforS : List.Forall₂ (fun (dn : DirectoryNode) (p : String × FSEntries) =>
              dn.name = p.1 ∧ ∃ out, checkoutD m s'' dn.digest = some out ∧
                XEqL out (specViewEnts p.2)) d.directories
              (dirPairsOf (sortEntries (toListE ch))) := by
            refine forall₂_imp_mem hforP ?_
            intro dn pr _ hpr hr
            refine ⟨hr.1, ?_⟩
            have hmem : (pr.1, FSEntry.dir pr.2) ∈ sortEntries (toListE ch) :=
              mem_dirPairsOf hpr
            have hsz2 : 1 + entSize (FSEntry.dir pr.2) ≤
                listSize (sortEntries (toListE ch)) := mem_listSize hmem
            rw [listSize_sortEntries, listSize_toListE] at hsz2
            simp only [entSize] at hsz2
            exact hr.2 s'' hext'' hc'' m (by omega)
          obtain ⟨dirsOut, hdirsM, hdirsF⟩ := dirs_mapM s'' m hforS
          have hpresent : ∀ dn ∈ d.directories,
              (findBlob s'' dn.digest.hash).isSome = true := by
            intro dn hdn
            obtain ⟨pr, _, _, out, hout, _⟩ := forall₂_mem_left hforS dn hdn
            exact checkoutD_findBlob hout
          have hfilter : (d.directories.filter fun dn =>
              (findBlob s'' dn.digest.hash).isSome) = d.directories :=
            List.filter_eq_self.mpr hpresent
          refine ⟨fileViews (sortEntries (toListE ch)) ++ dirsOut ++
            (symNodesOf (sortEntries (toListE ch))).map
              (fun sn => (sn.name, XTree.symlink sn.target)), ?_, ?_⟩
          · simp only [checkoutD, blobDigest, hfound'', hfilter, hfilesM, hdirsM, hsymP]
            rfl
          · have hx : XEqP (fileViews (sortEntries (toListE ch)) ++ dirsOut ++
                (symNodesOf (sortEntries (toListE ch))).map
                  (fun sn => (sn.name, XTree.symlink sn.target)))
                (fileViews (sortEntries (toListE ch)) ++
                  dirViews (sortEntries (toListE ch)) ++
                  symViews (sortEntries (toListE ch))) := by
              refine XEqP_append (XEqP_append ?_ ?_) ?_
              · exact XEqP_flat_refl _ (fileViews_flat _)
              · rw [dirViews_eq_map]
                exact XEqP_of_forall₂ hdirsF
              · rw [symViews_eq_map]
                exact XEqP_flat_refl _ (by
                  rw [← symViews_eq_map]
                  exact symViews_flat _)
            have hp : (fileViews (sortEntries (toListE ch)) ++
                dirViews (sortEntries (toListE ch)) ++
                symViews (sortEntries (toListE ch))).Perm (specViewEnts ch) := by
              refine (views_split_perm _).trans ?_
              rw [specViewEnts_eq_viewsOf ch]
              exact (List.perm_insertionSort _ _).filterMap _
            exact XEqL.mk hx hp

theorem Consistent_nil : Consistent [] := fun _ _ hf => by cases hf

theorem anyOtherL_perm {l₁ l₂ : List (String × FSEntry)} (h : l₁.Perm l₂) :
    anyOtherL l₁ = anyOtherL l₂ := by
  unfold anyOtherL
  cases hv : l₂.any (fun p => hasOtherE p.2) with
  | true =>
    rw [List.any_eq_true] at hv ⊢
    obtain ⟨x, hx, hfx⟩ := hv
    exact ⟨x, h.mem_iff.mpr hx, hfx⟩
  | false =>
    rw [List.any_eq_false] at hv ⊢
    intro x hx
    exact hv x (h.mem_iff.mp hx)

theorem anyOtherL_toListE : ∀ ch : FSEntries, anyOtherL (toListE ch) = hasOtherEnts ch
  | .nil => rfl
  | .cons n e rest => by
    simp only [anyOtherL, toListE, List.any_cons, hasOtherEnts]
    rw [show (List.any (toListE rest) fun p => hasOtherE p.2) = anyOtherL (toListE rest)
      from rfl]
    rw [anyOtherL_toListE rest]

theorem anyOtherL_sorted (ch : FSEntries) :
    anyOtherL (sortEntries (toListE ch)) = hasOtherEnts ch :=
  (anyOtherL_perm (List.perm_insertionSort _ _)).trans (anyOtherL_toListE ch)

/-- Success/failure of the commit loop is decided exactly by the
presence of an unsupported file kind; the error is always
`UnsupportedFileType`. -/
theorem commit_other_main : ∀ fuel : Nat,
    (∀ es s, listSize es < fuel →
      (anyOtherL es = true →
        commitList fuel s es = some (.error ⟨.unsupportedFileType, false⟩)) ∧
      (anyOtherL es = false → ∃ d s', commitList fuel s es = some (.ok (d, s')))) ∧
    (∀ ch s, entsSize ch + 1 < fuel →
      (hasOtherEnts ch = true →
        commitDirectory fuel s ch = some (.error ⟨.unsupportedFileType, false⟩)) ∧
      (hasOtherEnts ch = false →
        ∃ dg s', commitDirectory fuel s ch = some (.ok (dg, s')))) := by
  intro fuel
  induction fuel with
  | zero =>
    constructor
    · intro es s hsz; omega
    · intro ch s hsz; omega
  | succ n ih =>
    obtain ⟨ihL, ihD⟩ := ih
    constructor
    · intro es s hsz
      cases es with
      | nil =>
        constructor
        · intro h; simp [anyOtherL] at h
        · intro _; exact ⟨⟨[], [], []⟩, s, rfl⟩
      | cons p rest =>
        obtain ⟨nb, e⟩ := p
        rw [listSize_cons] at hsz
        have hany : anyOtherL ((nb, e) :: rest) = (hasOtherE e || anyOtherL rest) := by
          simp [anyOtherL, List.any_cons]
        cases e with
        | file data mode =>
          have hszr : listSize rest < n := by simp [entSize] at hsz; omega
          constructor
          · intro h
            rw [hany] at h
            simp only [hasOtherE, Bool.false_or] at h
            simp only [commitList, (ihL rest _ hszr).1 h]
          · intro h
            rw [hany] at h
            simp only [hasOtherE, Bool.false_or] at h
            obtain ⟨d2, s2, hok⟩ := (ihL rest (addObject s (.bytes data)).2 hszr).2 h
            exact ⟨{ d2 with files :=
                ⟨nb, (addObject s (.bytes data)).1, mode &&& 64 == 64⟩ :: d2.files }, s2,
              by simp only [commitList, hok]⟩
        | dir ch =>
          have hszr : listSize rest < n := by simp [entSize] at hsz; omega
          have hszd : entsSize ch + 1 < n := by simp [entSize] at hsz; omega
          constructor
          · intro h
            rw [hany] at h
            simp only [hasOtherE] at h
            cases hch : hasOtherEnts ch with
            | true => simp only [commitList, (ihD ch s hszd).1 hch]
            | false =>
              rw [hch, Bool.false_or] at h
              obtain ⟨dg, s1, hok1⟩ := (ihD ch s hszd).2 hch
              simp only [commitList, hok1, (ihL rest s1 hszr).1 h]
          · intro h
            rw [hany] at h
            simp only [hasOtherE] at h
            rcases Bool.or_eq_false_iff.mp h with ⟨h1, h2⟩
            obtain ⟨dg, s1, hok1⟩ := (ihD ch s hszd).2 h1
            obtain ⟨d2, s2, hok2⟩ := (ihL rest s1 hszr).2 h2
            exact ⟨{ d2 with directories := ⟨nb, dg⟩ :: d2.directories }, s2,
              by simp only [commitList, hok1, hok2]⟩
        | symlink tg =>
          have hszr : listSize rest < n := by simp [entSize] at hsz; omega
          constructor
          · intro h
            rw [hany] at h
            simp only [hasOtherE, Bool.false_or] at h
            simp only [commitList, (ihL rest s hszr).1 h]
          · intro h
            rw [hany] at h
            simp only [hasOtherE, Bool.false_or] at h
            obtain ⟨d2, s2, hok⟩ := (ihL rest s hszr).2 h
            exact ⟨{ d2 with symlinks := ⟨nb, tg⟩ :: d2.symlinks }, s2,
              by simp only [commitList, hok]⟩
        | socket =>
          have hszr : listSize rest < n := by simp [entSize] at hsz; omega
          constructor
          · intro h
            rw [hany] at h
            simp only [hasOtherE, Bool.false_or] at h
            simp only [commitList, (ihL rest s hszr).1 h]
          · intro h
            rw [hany] at h
            simp only [hasOtherE, Bool.false_or] at h
            obtain ⟨d2, s2, hok⟩ := (ihL rest s hszr).2 h
            exact ⟨d2, s2, by simp only [commitList, hok]⟩
        | other =>
          constructor
          · intro _; simp only [commitList]
          · intro h
            rw [hany] at h
            simp [hasOtherE] at h
    · intro ch s hsz
      have hszl : listSize (sortEntries (toListE ch)) < n := by
        rw [listSize_sortEntries, listSize_toListE]; omega
      constructor
      · intro h
        have := (ihL (sortEntries (toListE ch)) s hszl).1 (by rw [anyOtherL_sorted, h])
        simp only [commitDirectory, this]
      · intro h
        obtain ⟨d, s1, hok⟩ :=
          (ihL (sortEntries (toListE ch)) s hszl).2 (by rw [anyOtherL_sorted, h])
        exact ⟨(addObject s1 (.dir d)).1, (addObject s1 (.dir d)).2,
          by simp only [commitDirectory, hok]⟩

theorem nodup_keys_eq {α β : Type} [DecidableEq α] :
    ∀ {l : List (α × β)}, (l.map Prod.fst).Nodup →
      ∀ {n : α} {a b : β}, (n, a) ∈ l → (n, b) ∈ l → a = b := by
  intro l
  induction l with
  | nil => intro _ n a b ha; cases ha
  | cons q t ih =>
    intro hnd n a b ha hb
    rw [List.map_cons, List.nodup_cons] at hnd
    rcases List.mem_cons.mp ha with h1 | h1 <;> rcases List.mem_cons.mp hb with h2 | h2
    · rw [← h1] at h2; exact (Prod.mk.injEq .. ▸ h2).2.symm
    · exfalso
      have hmm : n ∈ t.map Prod.fst := List.mem_map_of_mem Prod.fst h2
      apply hnd.1
      rw [← h1]
      exact hmm
    · exfalso
      have hmm : n ∈ t.map Prod.fst := List.mem_map_of_mem Prod.fst h1
      apply hnd.1
      rw [← h2]
      exact hmm
    · exact ih hnd.2 h1 h2

theorem mem_fileNodesOf_names : ∀ {l : List (String × FSEntry)} {n : String},
    n ∈ (fileNodesOf l).map FileNode.name → ∃ data mode, (n, FSEntry.file data mode) ∈ l := by
  intro l
  induction l with
  | nil => intro n hn; cases hn
  | cons p t ih =>
    intro n hn
    obtain ⟨nb, e⟩ := p
    cases e <;> simp only [fileNodesOf, List.filterMap_cons] at hn
    case file data mode =>
      rcases List.mem_cons.mp hn with h1 | h1
      · subst h1; exact ⟨data, mode, List.mem_cons_self _ _⟩
      · obtain ⟨data', mode', hm⟩ := ih (by simpa [fileNodesOf] using h1)
        exact ⟨data', mode', List.mem_cons_of_mem _ hm⟩
    all_goals
      obtain ⟨data', mode', hm⟩ := ih (by simpa [fileNodesOf] using hn)
      exact ⟨data', mode', List.mem_cons_of_mem _ hm⟩

theorem mem_symNodesOf_names : ∀ {l : List (String × FSEntry)} {n : String},
    n ∈ (symNodesOf l).map SymlinkNode.name → ∃ tg, (n, FSEntry.symlink tg) ∈ l := by
  intro l
  induction l with
  | nil => intro n hn; cases hn
  | cons p t ih =>
    intro n hn
    obtain ⟨nb, e⟩ := p
    cases e <;> simp only [symNodesOf, List.filterMap_cons] at hn
    case symlink tg =>
      rcases List.mem_cons.mp hn with h1 | h1
      · subst h1; exact ⟨tg, List.mem_cons_self _ _⟩
      · obtain ⟨tg', hm⟩ := ih (by simpa [symNodesOf] using h1)
        exact ⟨tg', List.mem_cons_of_mem _ hm⟩
    all_goals
      obtain ⟨tg', hm⟩ := ih (by simpa [symNodesOf] using hn)
      exact ⟨tg', List.mem_cons_of_mem _ hm⟩

theorem forall₂_fst_names {dnl : List DirectoryNode} {pl : List (String × FSEntries)}
    {R : DirectoryNode → (String × FSEntries) → Prop}
    (hR : ∀ dn p, R dn p → dn.name = p.1)
    (h : List.Forall₂ R dnl pl) :
    dnl.map DirectoryNode.name = pl.map Prod.fst := by
  induction h with
  | nil => rfl
  | cons hx _ ih => simp [hR _ _ hx, ih]

/-- C7: walking a local directory in sorted name order, `_commit_directory`
ingests every regular file with executable bit `(mode & S_IXUSR) != 0`,
recurses into every subdirectory, records every symlink target verbatim,
skips sockets silently, and fails the whole commit with
`UnsupportedFileType` as soon as any entry has another file type. -/
theorem commit_entry_classification (fuel : Nat) (s : Store) (ch : FSEntries)
    (hc : Consistent s) (hfuel : entsSize ch + 1 < fuel) :
    (hasOtherEnts ch = true →
      commitDirectory fuel s ch = some (.error ⟨.unsupportedFileType, false⟩)) ∧
    (entsWFb ch = true →
      ∃ d s', commitDirectory fuel s ch = some (.ok (blobDigest (.dir d), s')) ∧
        findBlob s' (encBlob (.dir d)) = some (.dir d) ∧
        d.files = fileNodesOf (sortEntries (toListE ch)) ∧
        d.symlinks = symNodesOf (sortEntries (toListE ch)) ∧
        (∀ n data mode, (n, FSEntry.file data mode) ∈ toListE ch →
          findBlob s' (encBlob (.bytes data)) = some (.bytes data)) ∧
        List.Forall₂ (fun (dn : DirectoryNode) (p : String × FSEntries) =>
          dn.name = p.1 ∧ DirCheckout p.2 dn.digest s')
          d.directories (dirPairsOf (sortEntries (toListE ch))) ∧
        (∀ n, (n, FSEntry.socket) ∈ toListE ch →
          ¬ n ∈ d.files.map FileNode.name ∧
          ¬ n ∈ d.directories.map DirectoryNode.name ∧
          ¬ n ∈ d.symlinks.map SymlinkNode.name)) := by
  constructor
  · intro h
    exact ((commit_other_main fuel).2 ch s hfuel).1 h
  · intro hwf
    obtain ⟨d, s', hok, hpay, hfound, _⟩ := (commit_main fuel).2 ch s hfuel hc hwf
    obtain ⟨hc', hes, hf, hsym, hpres, hfor⟩ := hpay
    refine ⟨d, s', hok, hfound, hf, hsym, ?_, hfor, ?_⟩
    · intro n data mode hm
      exact hpres n data mode (mem_sortEntries.mpr hm)
    · intro n hm
      have hnd : ((toListE ch).map Prod.fst).Nodup := entsWFb_nodup ch hwf
      refine ⟨?_, ?_, ?_⟩
      · intro hmem
        rw [hf] at hmem
        obtain ⟨data, mode, hmf⟩ := mem_fileNodesOf_names hmem
        have hmf' := mem_sortEntries.mp hmf
        cases nodup_keys_eq hnd hm hmf'
      · intro hmem
        have hnames : d.directories.map DirectoryNode.name =
            (dirPairsOf (sortEntries (toListE ch))).map Prod.fst :=
          forall₂_fst_names (fun _ _ hr => hr.1) hfor
        rw [hnames] at hmem
        obtain ⟨pr, hpr, hpr1⟩ := List.mem_map.mp hmem
        have hmd := mem_sortEntries.mp (mem_dirPairsOf hpr)
        rw [hpr1] at hmd
        cases nodup_keys_eq hnd hm hmd
      · intro hmem
        rw [hsym] at hmem
        obtain ⟨tg, hms⟩ := mem_symNodesOf_names hmem
        have hms' := mem_sortEntries.mp hms
        cases nodup_keys_eq hnd hm hms'

/-- Witness for C7: an unsupported entry aborts the commit of one tree;
a well-formed tree with file, subdirectory, symlink and socket commits. -/
theorem commit_entry_classification_witness :
    commitDirectory 10 [] (.cons "x" .other .nil) =
      some (.error ⟨.unsupportedFileType, false⟩) ∧
    ∃ d s', commitDirectory 20 [] rtTree = some (.ok (blobDigest (.dir d), s')) := by
  constructor
  · exact (commit_entry_classification 10 [] (.cons "x" .other .nil) Consistent_nil
      (by decide)).1 (by decide)
  · obtain ⟨d, s', hok, _⟩ := (commit_entry_classification 20 [] rtTree Consistent_nil
      (by decide)).2 (by decide)
    exact ⟨d, s', hok⟩

/-- C1: round-trip — committing a local tree (regular files,
subdirectories, symlinks; sockets are dropped, unsupported kinds absent)
under a ref and then extracting that ref materializes a tree equal to
the committed one up to entry order, compared by name, file content,
executable bit and symlink target. -/
theorem commit_extract_roundtrip (cfuel xfuel : Nat) (cas : CAS) (r : String)
    (T : FSEntries) (hwf : entsWFb T = true) (hcons : Consistent cas.objects)
    (hcf : entsSize T + 1 < cfuel) (hxf : entsSize T < xfuel) :
    ∃ cas' out, commit cfuel cas [r] T = some (.ok cas') ∧
      extractFresh xfuel cas' r = some out ∧ XEqL out (specViewEnts T) := by
  obtain ⟨d, s', hok, hpay, hfound, hDC⟩ := (commit_main cfuel).2 T cas.objects hcf hcons hwf
  obtain ⟨out, hout, hxeq⟩ := hDC s' (Extends.rfl s') hpay.1 xfuel hxf
  refine ⟨setRef { objects := s', refs := cas.refs } r (blobDigest (.dir d)), out, ?_, ?_, hxeq⟩
  · simp only [commit, hok]
    rfl
  · simp only [extractFresh, resolveRef, setRef, findRef, if_pos rfl]
    exact hout

/-- Witness for C1 on the concrete tree `rtTree` committed into an empty
cache. -/
theorem commit_extract_roundtrip_witness :
    ∃ cas' out, commit 20 ⟨[], []⟩ ["r1"] rtTree = some (.ok cas') ∧
      extractFresh 20 cas' "r1" = some out ∧ XEqL out (specViewEnts rtTree) :=
  commit_extract_roundtrip 20 20 ⟨[], []⟩ "r1" rtTree (by decide) Consistent_nil
    (by decide) (by decide)

/-! ## Reachability lemmas (prune) -/

theorem DirReach_trans {s : Store} {a b c : Nat} (hab : DirReach s a b)
    (hbc : DirReach s b c) : DirReach s a c := by
  induction hbc with
  | refl => exact hab
  | subdir _ hfb hdn ih => exact DirReach.subdir ih hfb hdn

theorem DirReach_blobReach_trans {s : Store} {a b c : Nat} (hab : DirReach s a b)
    (hbc : BlobReach s b c) : BlobReach s a c := by
  cases hbc with
  | inl h => exact Or.inl (DirReach_trans hab h)
  | inr h =>
    obtain ⟨h', d, fn, hdr, hfb, hfn, heq⟩ := h
    exact Or.inr ⟨h', d, fn, DirReach_trans hab hdr, hfb, hfn, heq⟩

/-- Specification of `_reachable_refs_dir`: the returned set contains
the accumulator and the root; everything newly added is reachable from
the root; and (when no file digest aliases a directory blob) every newly
added directory hash has its children in the set. -/
theorem reach_spec : ∀ fuel : Nat,
    (∀ s acc t out, reachableRefsDir fuel s acc t = some out →
      (∀ x ∈ acc, x ∈ out) ∧ t.hash ∈ out ∧
      (∀ x ∈ out, x ∈ acc ∨ BlobReach s t.hash x) ∧
      (FileDirDisjoint s → ∀ x ∈ out, x ∉ acc →
        ∀ dm, findBlob s x = some (.dir dm) →
          (∀ fn ∈ dm.files, fn.digest.hash ∈ out) ∧
          (∀ dn ∈ dm.directories, dn.digest.hash ∈ out))) ∧
    (∀ s acc l out, reachList fuel s acc l = some out →
      (∀ x ∈ acc, x ∈ out) ∧ (∀ dn ∈ l, dn.digest.hash ∈ out) ∧
      (∀ x ∈ out, x ∈ acc ∨ ∃ dn ∈ l, BlobReach s dn.digest.hash x) ∧
      (FileDirDisjoint s → ∀ x ∈ out, x ∉ acc →
        ∀ dm, findBlob s x = some (.dir dm) →
          (∀ fn ∈ dm.files, fn.digest.hash ∈ out) ∧
          (∀ dn ∈ dm.directories, dn.digest.hash ∈ out))) := by
  intro fuel
  induction fuel with
  | zero =>
    constructor
    · intro s acc t out h; simp [reachableRefsDir] at h
    · intro s acc l out h; simp [reachList] at h
  | succ n ih =>
    obtain ⟨ihR, ihL⟩ := ih
    constructor
    · intro s acc t out h
      by_cases hmem : t.hash ∈ acc
      · simp only [reachableRefsDir, if_pos hmem, Option.some.injEq] at h
        subst h
        refine ⟨fun x hx => hx, hmem, fun x hx => Or.inl hx, ?_⟩
        intro _ x hx hxacc
        exact absurd hx hxacc
      · rw [reachableRefsDir, if_neg hmem] at h
        cases hfb : findBlob s t.hash with
        | none => rw [hfb] at h; cases h
        | some b =>
          cases b with
          | bytes data => rw [hfb] at h; cases h
          | dir d =>
            rw [hfb] at h
            obtain ⟨mono, dmem, sound, closed⟩ := ihL s _ d.directories out h
            have hr1 : ∀ x, x ∈ ((d.files.map fun fn => fn.digest.hash) ++
                t.hash :: acc) → x ∈ out := mono
            refine ⟨?_, ?_, ?_, ?_⟩
            · intro x hx
              exact hr1 x (List.mem_append_right _ (List.mem_cons_of_mem _ hx))
            · exact hr1 t.hash (List.mem_append_right _ (List.mem_cons_self _ _))
            · intro x hx
              rcases sound x hx with hx1 | ⟨dn, hdn, hbr⟩
              · rcases List.mem_append.mp hx1 with hf | hc
                · obtain ⟨fn, hfn, hfneq⟩ := List.mem_map.mp hf
                  exact Or.inr (Or.inr ⟨t.hash, d, fn, DirReach.refl _, hfb, hfn, hfneq⟩)
                · rcases List.mem_cons.mp hc with h1 | h1
                  · subst h1; exact Or.inr (Or.inl (DirReach.refl _))
                  · exact Or.inl h1
              · exact Or.inr (DirReach_blobReach_trans
                  (DirReach.subdir (DirReach.refl _) hfb hdn) hbr)
            · intro hdisj x hx hxacc dm hdm
              by_cases hxr1 : x ∈ (d.files.map fun fn => fn.digest.hash) ++ t.hash :: acc
              · rcases List.mem_append.mp hxr1 with hf | hc
                · obtain ⟨fn, hfn, hfneq⟩ := List.mem_map.mp hf
                  exact absurd hfneq (hdisj x dm hdm t.hash d fn hfb hfn)
                · rcases List.mem_cons.mp hc with h1 | h1
                  · subst h1
                    rw [hfb] at hdm
                    cases hdm
                    constructor
                    · intro fn hfn
                      exact hr1 _ (List.mem_append_left _ (List.mem_map_of_mem _ hfn))
                    · intro dn hdn
                      exact dmem dn hdn
                  · exact absurd h1 hxacc
              · exact closed hdisj x hx hxr1 dm hdm
    · intro s acc l out h
      cases l with
      | nil =>
        simp only [reachList, Option.some.injEq] at h
        subst h
        refine ⟨fun x hx => hx, fun dn hdn => absurd hdn (List.not_mem_nil _),
          fun x hx => Or.inl hx, ?_⟩
        intro _ x hx hxacc
        exact absurd hx hxacc
      | cons dn rest =>
        rw [reachList] at h
        cases hhd : reachableRefsDir n s acc dn.digest with
        | none => rw [hhd] at h; cases h
        | some acc1 =>
          rw [hhd] at h
          obtain ⟨mono1, root1, sound1, closed1⟩ := ihR s acc dn.digest acc1 hhd
          obtain ⟨mono2, dmem2, sound2, closed2⟩ := ihL s acc1 rest out h
          refine ⟨fun x hx => mono2 x (mono1 x hx), ?_, ?_, ?_⟩
          · intro dn' hdn'
            rcases List.mem_cons.mp hdn' with h1 | h1
            · subst h1; exact mono2 _ root1
            · exact dmem2 dn' h1
          · intro x hx
            rcases sound2 x hx with hx1 | ⟨dn', hdn', hbr⟩
            · rcases sound1 x hx1 with hx2 | hbr
              · exact Or.inl hx2
              · exact Or.inr ⟨dn, List.mem_cons_self _ _, hbr⟩
            · exact Or.inr ⟨dn', List.mem_cons_of_mem _ hdn', hbr⟩
          · intro hdisj x hx hxacc dm hdm
            by_cases hx1 : x ∈ acc1
            · obtain ⟨hfiles, hdirs⟩ := closed1 hdisj x hx1 hxacc dm hdm
              exact ⟨fun fn hfn => mono2 _ (hfiles fn hfn),
                fun dn' hdn' => mono2 _ (hdirs dn' hdn')⟩
            · exact closed2 hdisj x hx hx1 dm hdm

/-- Specification of the marking phase over all refs. -/
theorem reachRefs_spec (fuel : Nat) (s : Store) :
    ∀ (refsl : List (String × Digest)) (acc out : List Nat),
      reachRefs fuel s acc refsl = some out →
      (∀ x ∈ acc, x ∈ out) ∧
      (∀ p ∈ refsl, p.2.hash ∈ out) ∧
      (∀ x ∈ out, x ∈ acc ∨ ∃ p ∈ refsl, BlobReach s p.2.hash x) ∧
      (FileDirDisjoint s → ∀ x ∈ out, x ∉ acc →
        ∀ dm, findBlob s x = some (.dir dm) →
          (∀ fn ∈ dm.files, fn.digest.hash ∈ out) ∧
          (∀ dn ∈ dm.directories, dn.digest.hash ∈ out)) := by
  intro refsl
  induction refsl with
  | nil =>
    intro acc out h
    simp only [reachRefs, Option.some.injEq] at h
    subst h
    refine ⟨fun x hx => hx, fun p hp => absurd hp (List.not_mem_nil _),
      fun x hx => Or.inl hx, ?_⟩
    intro _ x hx hxacc
    exact absurd hx hxacc
  | cons pr rest ih =>
    intro acc out h
    rw [reachRefs] at h
    cases hhd : reachableRefsDir fuel s acc pr.2 with
    | none => rw [hhd] at h; cases h
    | some acc1 =>
      rw [hhd] at h
      obtain ⟨mono1, root1, sound1, closed1⟩ := (reach_spec fuel).1 s acc pr.2 acc1 hhd
      obtain ⟨mono2, pmem2, sound2, closed2⟩ := ih acc1 out h
      refine ⟨fun x hx => mono2 x (mono1 x hx), ?_, ?_, ?_⟩
      · intro p hp
        rcases List.mem_cons.mp hp with h1 | h1
        · subst h1; exact mono2 _ root1
        · exact pmem2 p h1
      · intro x hx
        rcases sound2 x hx with hx1 | ⟨p, hp, hbr⟩
        · rcases sound1 x hx1 with hx2 | hbr
          · exact Or.inl hx2
          · exact Or.inr ⟨pr, List.mem_cons_self _ _, hbr⟩
        · exact Or.inr ⟨p, List.mem_cons_of_mem _ hp, hbr⟩
      · intro hdisj x hx hxacc dm hdm
        by_cases hx1 : x ∈ acc1
        · obtain ⟨hfiles, hdirs⟩ := closed1 hdisj x hx1 hxacc dm hdm
          exact ⟨fun fn hfn => mono2 _ (hfiles fn hfn),
            fun dn' hdn' => mono2 _ (hdirs dn' hdn')⟩
        · exact closed2 hdisj x hx hx1 dm hdm

/-- A set containing a root and closed under directory/file edges
contains everything reachable from the root. -/
theorem closure_in {s : Store} {out : List Nat}
    (hclosed : ∀ x ∈ out, ∀ dm, findBlob s x = some (.dir dm) →
      (∀ fn ∈ dm.files, fn.digest.hash ∈ out) ∧
      (∀ dn ∈ dm.directories, dn.digest.hash ∈ out))
    {r : Nat} (hroot : r ∈ out) : ∀ h, BlobReach s r h → h ∈ out := by
  have hdir : ∀ h, DirReach s r h → h ∈ out := by
    intro h hd
    induction hd with
    | refl => exact hroot
    | subdir _ hfb hdn ih => exact (hclosed _ ih _ hfb).2 _ hdn
  intro h hbr
  cases hbr with
  | inl hd => exact hdir h hd
  | inr hd =>
    obtain ⟨h', d, fn, hdr, hfb, hfn, heq⟩ := hd
    rw [← heq]
    exact (hclosed _ (hdir h' hdr) _ hfb).1 _ hfn

/-! ## Filter lemmas for the sweep -/

theorem findBlob_filter_keep {R : List Nat} : ∀ {s : Store} {h : Nat} {b : Blob},
    findBlob s h = some b → h ∈ R →
    findBlob (s.filter fun p => decide (p.1 ∈ R)) h = some b := by
  intro s
  induction s with
  | nil => intro h b hf; cases hf
  | cons q t ih =>
    intro h b hf hR
    obtain ⟨h0, b0⟩ := q
    by_cases heq : h = h0
    · subst heq
      rw [findBlob, if_pos rfl] at hf
      cases hf
      rw [List.filter_cons, if_pos (by simpa using hR)]
      rw [findBlob, if_pos rfl]
    · rw [findBlob, if_neg heq] at hf
      rw [List.filter_cons]
      by_cases hR0 : h0 ∈ R
      · rw [if_pos (by simpa using hR0)]
        rw [findBlob, if_neg heq]
        exact ih hf hR
      · rw [if_neg (by simpa using hR0)]
        exact ih hf hR

theorem findBlob_filter_inv {R : List Nat} : ∀ {s : Store} {h : Nat} {b : Blob},
    findBlob (s.filter fun p => decide (p.1 ∈ R)) h = some b →
    h ∈ R ∧ findBlob s h = some b := by
  intro s
  induction s with
  | nil => intro h b hf; cases hf
  | cons q t ih =>
    intro h b hf
    obtain ⟨h0, b0⟩ := q
    rw [List.filter_cons] at hf
    by_cases hR0 : h0 ∈ R
    · rw [if_pos (by simpa using hR0)] at hf
      by_cases heq : h = h0
      · subst heq
        rw [findBlob, if_pos rfl] at hf
        cases hf
        exact ⟨hR0, by rw [findBlob, if_pos rfl]⟩
      · rw [findBlob, if_neg heq] at hf
        obtain ⟨h1, h2⟩ := ih hf
        exact ⟨h1, by rw [findBlob, if_neg heq]; exact h2⟩
    · rw [if_neg (by simpa using hR0)] at hf
      obtain ⟨h1, h2⟩ := ih hf
      by_cases heq : h = h0
      · subst heq; exact absurd h1 hR0
      · exact ⟨h1, by rw [findBlob, if_neg heq]; exact h2⟩

theorem mem_filter_keep {R : List Nat} : ∀ {s : Store} {q : Nat × Blob},
    q ∈ s.filter (fun p => decide (p.1 ∈ R)) → q ∈ s ∧ q.1 ∈ R := by
  intro s q hq
  have := List.mem_filter.mp hq
  exact ⟨this.1, by simpa using this.2⟩

theorem sum_filter_split (f : Nat × Blob → Nat) (q : Nat × Blob → Bool) :
    ∀ s : Store,
      ((s.filter q).map f).sum + ((s.filter fun p => !q p).map f).sum = (s.map f).sum := by
  intro s
  induction s with
  | nil => rfl
  | cons p t ih =>
    cases hq : q p with
    | true =>
      simp only [List.filter_cons, hq, Bool.not_true, if_true, if_false,
        List.map_cons, List.sum_cons, Bool.false_eq_true, ite_false, ite_true]
      omega
    | false =>
      simp only [List.filter_cons, hq, Bool.not_false, if_true, if_false,
        List.map_cons, List.sum_cons, Bool.false_eq_true, ite_false, ite_true]
      omega

/-- Counterexample to C5 as stated: in `c5CAS` the file `f`'s digest
equals the subdirectory `sub`'s digest, so the mark phase records the
hash as a file and then skips the subdirectory via the visited-set;
`sub`'s child blob `g` is reachable from the ref but is pruned, leaving
the ref's tree incomplete. -/
theorem prune_counterexample :
    ∃ n cas', prune 5 c5CAS = some (n, cas') ∧
      BlobReach c5CAS.objects (encBlob (.dir c5R)) (encBlob c5G) ∧
      findBlob c5CAS.objects (encBlob c5G) = some c5G ∧
      findBlob cas'.objects (encBlob c5G) = none := by
  refine ⟨1,
    ⟨[(encBlob (.dir c5R), .dir c5R), (encBlob (.dir c5D), .dir c5D)], c5CAS.refs⟩,
    by decide, ?_, by decide, by decide⟩
  refine Or.inr ⟨encBlob (.dir c5D), c5D, ⟨"g", ⟨encBlob c5G, blobSize c5G⟩, false⟩,
    ?_, by decide, by decide, rfl⟩
  exact @DirReach.subdir c5CAS.objects (encBlob (.dir c5R)) (encBlob (.dir c5R)) c5R
    ⟨"sub", ⟨encBlob (.dir c5D), blobSize (.dir c5D)⟩⟩
    (DirReach.refl _) (by decide) (by decide)

/-- C5 as amended: after `prune()` returns, every remaining blob is in
the transitive reachable set of some ref (directory hashes and file
digest hashes, recursing through child directories); the returned count
is the total size of the unlinked objects; and — provided no file
entry's digest aliases a stored directory blob's hash (true of every
store the commit pipeline builds) — every blob reachable from a ref is
preserved, so every ref still resolves to a complete tree. -/
theorem prune_spec (fuel : Nat) (cas : CAS) (n : Nat) (cas' : CAS)
    (h : prune fuel cas = some (n, cas')) :
    (∀ hb b, findBlob cas'.objects hb = some b →
      ∃ p ∈ cas.refs, BlobReach cas.objects p.2.hash hb) ∧
    ((cas'.objects.map fun p => blobSize p.2).sum + n =
      (cas.objects.map fun p => blobSize p.2).sum) ∧
    (FileDirDisjoint cas.objects →
      ∀ p ∈ cas.refs, ∀ hb b, BlobReach cas.objects p.2.hash hb →
        findBlob cas.objects hb = some b → findBlob cas'.objects hb = some b) := by
  unfold prune at h
  cases hR : reachRefs fuel cas.objects [] cas.refs with
  | none => rw [hR] at h; cases h
  | some reachable =>
    rw [hR] at h
    simp only [Option.some.injEq, Prod.mk.injEq] at h
    obtain ⟨hn, hcas⟩ := h
    obtain ⟨mono, roots, sound, closed⟩ :=
      reachRefs_spec fuel cas.objects cas.refs [] reachable hR
    refine ⟨?_, ?_, ?_⟩
    · intro hb b hf
      rw [← hcas] at hf
      obtain ⟨hbR, _⟩ := findBlob_filter_inv hf
      rcases sound hb hbR with h1 | h1
      · exact absurd h1 (List.not_mem_nil _)
      · exact h1
    · rw [← hcas, ← hn]
      simp only []
      exact sum_filter_split (fun p => blobSize p.2) (fun p => decide (p.1 ∈ reachable))
        cas.objects
    · intro hdisj p hp hb b hbr hforig
      have hclosed' : ∀ x ∈ reachable, ∀ dm,
          findBlob cas.objects x = some (.dir dm) →
          (∀ fn ∈ dm.files, fn.digest.hash ∈ reachable) ∧
          (∀ dn ∈ dm.directories, dn.digest.hash ∈ reachable) :=
        fun x hx dm hdm => closed hdisj x hx (List.not_mem_nil x) dm hdm
      have hbR : hb ∈ reachable := closure_in hclosed' (roots p hp) hb hbr
      rw [← hcas]
      exact findBlob_filter_keep hforig hbR

/-- Witness for the amended C5 on a cache with one ref to an empty
directory plus one unreachable one-byte blob. -/
theorem prune_spec_witness :
    (∀ hb b, findBlob ([(encBlob (.dir ⟨[], [], []⟩), Blob.dir ⟨[], [], []⟩)]) hb = some b →
      ∃ p ∈ w5CAS.refs, BlobReach w5CAS.objects p.2.hash hb) ∧
    ((([(encBlob (.dir ⟨[], [], []⟩), Blob.dir ⟨[], [], []⟩)] : Store).map
        fun p => blobSize p.2).sum + 1 =
      (w5CAS.objects.map fun p => blobSize p.2).sum) ∧
    (FileDirDisjoint w5CAS.objects →
      ∀ p ∈ w5CAS.refs, ∀ hb b, BlobReach w5CAS.objects p.2.hash hb →
        findBlob w5CAS.objects hb = some b →
        findBlob ([(encBlob (.dir ⟨[], [], []⟩), Blob.dir ⟨[], [], []⟩)]) hb = some b) :=
  prune_spec 5 w5CAS 1
    ⟨[(encBlob (.dir ⟨[], [], []⟩), .dir ⟨[], [], []⟩)], w5CAS.refs⟩ (by decide)

end CASCache
